import Mathlib

/-!
Verification development for the openbotx agent runtime.

The Python sources are shallowly embedded: texts are modelled as lists of
characters (`Str`), regular-expression token matching from
`openbotx/helpers/directives.py` is embedded as an explicit scanner,
the compaction strategies of `openbotx/core/compaction.py`, the history
format of `openbotx/core/context_store.py`, the policy evaluation of
`openbotx/core/tool_policy.py`, the gateway lifecycle of
`openbotx/core/gateway_manager.py` and the database operations of
`openbotx/core/memory_index.py` are embedded as pure functions and state
transformers.  Library functions the code calls (Python `str` methods,
`re` for the fixed token patterns, `datetime`, `sqlite` side tables) are
modelled explicitly next to their uses; each model notes its scope.
-/

/-- Texts are modelled as lists of characters (Python `str`, ASCII scope). -/
abbrev Str := List Char

/-- Model of Python ASCII whitespace, the characters matched by `\s` and
stripped by `str.strip()` (the model is ASCII scoped): space, tab,
newline, carriage return, vertical tab, form feed. -/
def isSpaceChar (c : Char) : Bool :=
  c.toNat = 32 || c.toNat = 9 || c.toNat = 10 || c.toNat = 13 ||
    c.toNat = 11 || c.toNat = 12

/-- ASCII uppercase letter test, by code point. -/
def isAsciiUpper (c : Char) : Bool := 65 ≤ c.toNat && c.toNat ≤ 90

/-- ASCII lowercase letter test, by code point. -/
def isAsciiLower (c : Char) : Bool := 97 ≤ c.toNat && c.toNat ≤ 122

/-- ASCII digit test, by code point. -/
def isDigitChar (c : Char) : Bool := 48 ≤ c.toNat && c.toNat ≤ 57

/-- Model of the regex word class `\w` used by the `\b` anchors in
`directives.py`.  Exact on ASCII; non-ASCII characters are treated as word
constituents (Python `\w` covers Unicode letters and digits). -/
def isWordChar (c : Char) : Bool :=
  isAsciiUpper c || isAsciiLower c || isDigitChar c || c.toNat = 95 || 128 ≤ c.toNat

/-- ASCII lowercasing, the model of case folding under `re.IGNORECASE`
for the all-lowercase-ASCII patterns of `directives.py`. -/
def lcChar (c : Char) : Char :=
  if isAsciiUpper c then Char.ofNat (c.toNat + 32) else c

/-- A word boundary `\b` holds after a word character when the next
character is not a word character, or at the end of the text. -/
def boundaryOk : Str → Bool
  | [] => true
  | c :: _ => !isWordChar c

/-- Case-insensitive pattern prefix test: the pattern characters are the
lowercase letters of a directive word. -/
def ciStarts : Str → Str → Bool
  | [], _ => true
  | _ :: _, [] => false
  | p :: ps, c :: cs => (lcChar c == p) && ciStarts ps cs

/-- Case-insensitive letter-pattern match with a trailing `\b`:
the word `w` matches at the head of `s` followed by a boundary. -/
def letterMatch (w : Str) (s : Str) : Bool :=
  ciStarts w s && boundaryOk (s.drop w.length)

/-- Match of the full token regex `/<w>\b` (case-insensitive) at the head
of `s`, as compiled from the pattern tables of `directives.py`. -/
def matchesTok (w : Str) (s : Str) : Bool :=
  match s with
  | [] => false
  | c :: cs => c == '/' && letterMatch w cs

/-- Model of `re.search` for the token regex `/<w>\b`: some position of
`s` matches. -/
def hasTok (w : Str) (s : Str) : Bool :=
  match s with
  | [] => false
  | c :: cs => matchesTok w (c :: cs) || hasTok w cs

/-- Structural worker for `removeTok`: while `skip` is positive the
characters of an already matched token are being consumed. -/
def removeTokSkip (w : Str) : Nat → Str → Str
  | _, [] => []
  | n + 1, _ :: cs => removeTokSkip w n cs
  | 0, c :: cs =>
    if matchesTok w (c :: cs) then removeTokSkip w w.length cs
    else c :: removeTokSkip w 0 cs

/-- Model of `re.sub` with empty replacement for the token regex `/<w>\b`:
every leftmost non-overlapping match is removed. -/
def removeTok (w : Str) (s : Str) : Str := removeTokSkip w 0 s

theorem removeTokSkip_eq_drop (w : Str) (n : Nat) (s : Str) :
    removeTokSkip w n s = removeTok w (s.drop n) := by
  induction s generalizing n with
  | nil => cases n <;> rfl
  | cons c cs ih =>
    cases n with
    | zero => rfl
    | succ m => simpa [removeTokSkip] using ih m

/-- Unfolding equation for `removeTok` in the shape of the scan of
`re.sub`: on a match the matched characters are dropped and scanning
continues after them. -/
theorem removeTok_cons (w : Str) (c : Char) (cs : Str) :
    removeTok w (c :: cs) =
      if matchesTok w (c :: cs) then removeTok w (cs.drop w.length)
      else c :: removeTok w cs := by
  show removeTokSkip w 0 (c :: cs) = _
  rw [removeTokSkip]
  rw [removeTokSkip_eq_drop]
  rfl

/-- Structural worker for `collapseWs`; the flag records whether the
previous character was whitespace (inside a run nothing is emitted). -/
def collapseWsAux : Bool → Str → Str
  | _, [] => []
  | inRun, c :: cs =>
    if isSpaceChar c then
      (if inRun then collapseWsAux true cs else ' ' :: collapseWsAux true cs)
    else c :: collapseWsAux false cs

/-- Model of `re.sub(r"\s+", " ", s)`: each maximal whitespace run becomes
one space. -/
def collapseWs (s : Str) : Str := collapseWsAux false s

theorem collapseWsAux_true (s : Str) :
    collapseWsAux true s = collapseWs (s.dropWhile isSpaceChar) := by
  induction s with
  | nil => rfl
  | cons c cs ih =>
    by_cases h : isSpaceChar c
    · simpa [collapseWsAux, h, List.dropWhile_cons, collapseWs] using ih
    · simp [collapseWsAux, h, List.dropWhile_cons, collapseWs]

/-- Unfolding equation for `collapseWs` in the run-skipping shape. -/
theorem collapseWs_cons (c : Char) (cs : Str) :
    collapseWs (c :: cs) =
      if isSpaceChar c then ' ' :: collapseWs (cs.dropWhile isSpaceChar)
      else c :: collapseWs cs := by
  show collapseWsAux false (c :: cs) = _
  by_cases h : isSpaceChar c <;> simp [collapseWsAux, h, collapseWsAux_true, collapseWs]

/-- Removal of trailing whitespace, the right half of `str.strip()`. -/
def stripEnd : Str → Str
  | [] => []
  | c :: cs =>
    match stripEnd cs with
    | [] => if isSpaceChar c then [] else [c]
    | r => c :: r

/-- Model of `str.strip()` (ASCII scope): leading and trailing whitespace
removed. -/
def pyStrip (s : Str) : Str := (stripEnd s).dropWhile isSpaceChar

/-- The whitespace cleanup at the end of `parse_directives`:
`re.sub(r"\s+", " ", clean_text).strip()`. -/
def cleanWs (s : Str) : Str := pyStrip (collapseWs s)

/-- The message directives of `openbotx/models/enums.py`. -/
inductive MessageDirective
  | think
  | verbose
  | reasoning
  | elevated
deriving DecidableEq, Repr

/-- The tool profiles of `openbotx/models/enums.py`. -/
inductive ToolProfile
  | minimal
  | coding
  | messaging
  | full
deriving DecidableEq, Repr

/-- The prompt modes of `openbotx/models/enums.py`. -/
inductive PromptMode
  | full
  | minimal
  | none
deriving DecidableEq, Repr

/-- The `ParsedDirectives` model of `openbotx/models/message.py` with its
field defaults. -/
structure ParsedDirectives where
  directives : List MessageDirective := []
  clean_text : Str := []
  prompt_mode : PromptMode := PromptMode.full
  tool_profile : ToolProfile := ToolProfile.full
  elevated : Bool := false
deriving DecidableEq, Repr

/-- Directive word of the pattern `/think\b`. -/
def wThink : Str := "think".toList

/-- Directive word of the pattern `/verbose\b`. -/
def wVerbose : Str := "verbose".toList

/-- Directive word of the pattern `/reasoning\b`. -/
def wReasoning : Str := "reasoning".toList

/-- Directive word of the pattern `/elevated\b`. -/
def wElevated : Str := "elevated".toList

/-- Tool profile word of the pattern `/minimal\b`. -/
def wMinimal : Str := "minimal".toList

/-- Tool profile word of the pattern `/coding\b`. -/
def wCoding : Str := "coding".toList

/-- Tool profile word of the pattern `/messaging\b`. -/
def wMessaging : Str := "messaging".toList

/-- Tool profile word of the pattern `/full\b`. -/
def wFull : Str := "full".toList

/-- Prompt mode word of the pattern `/quiet\b` (maps to minimal). -/
def wQuiet : Str := "quiet".toList

/-- Prompt mode word of the pattern `/silent\b` (maps to none). -/
def wSilent : Str := "silent".toList

/-- One conditional search-and-remove step of `parse_directives`: the loop
body checks `re.search` and on success applies `re.sub`. -/
def stepRemove (w : Str) (s : Str) : Str :=
  if hasTok w s then removeTok w s else s

/-- The text after the `/think` search-and-remove step. -/
def cThink (t : Str) : Str := stepRemove wThink t

/-- The text after the `/verbose` step. -/
def cVerbose (t : Str) : Str := stepRemove wVerbose (cThink t)

/-- The text after the `/reasoning` step. -/
def cReasoning (t : Str) : Str := stepRemove wReasoning (cVerbose t)

/-- The text after the `/elevated` step (the end of the directive loop). -/
def cElevated (t : Str) : Str := stepRemove wElevated (cReasoning t)

/-- The text after the `/minimal` step. -/
def cMinimal (t : Str) : Str := stepRemove wMinimal (cElevated t)

/-- The text after the `/coding` step. -/
def cCoding (t : Str) : Str := stepRemove wCoding (cMinimal t)

/-- The text after the `/messaging` step. -/
def cMessaging (t : Str) : Str := stepRemove wMessaging (cCoding t)

/-- The text after the `/full` step (the end of the profile loop). -/
def cFull (t : Str) : Str := stepRemove wFull (cMessaging t)

/-- The text after the `/quiet` step. -/
def cQuiet (t : Str) : Str := stepRemove wQuiet (cFull t)

/-- The text after the `/silent` step (the end of the mode loop). -/
def cSilent (t : Str) : Str := stepRemove wSilent (cQuiet t)

/-- Embedding of `parse_directives` from `openbotx/helpers/directives.py`:
the four directive patterns, the four tool profile patterns and the two
prompt mode patterns are processed in their dictionary order, each doing a
case-insensitive search then removal on the current text; the profile and
mode assignments of the source loops unfold to the nested conditionals
below (the pattern latest in dictionary order wins); finally whitespace is
collapsed and the text trimmed. -/
def parse_directives (text : Str) : ParsedDirectives :=
  if text = [] then {} else
  { directives :=
      (if hasTok wThink text then [MessageDirective.think] else []) ++
      (if hasTok wVerbose (cThink text) then [MessageDirective.verbose] else []) ++
      (if hasTok wReasoning (cVerbose text) then [MessageDirective.reasoning] else []) ++
      (if hasTok wElevated (cReasoning text) then [MessageDirective.elevated] else [])
    clean_text := cleanWs (cSilent text)
    prompt_mode :=
      if hasTok wSilent (cQuiet text) then PromptMode.none
      else if hasTok wQuiet (cFull text) then PromptMode.minimal
      else PromptMode.full
    tool_profile :=
      if hasTok wFull (cMessaging text) then ToolProfile.full
      else if hasTok wMessaging (cCoding text) then ToolProfile.messaging
      else if hasTok wCoding (cMinimal text) then ToolProfile.coding
      else if hasTok wMinimal (cElevated text) then ToolProfile.minimal
      else ToolProfile.full
    elevated := hasTok wElevated (cReasoning text) }

example :
    parse_directives "/verbose /coding please refactor".toList =
      { directives := [.verbose]
        clean_text := "please refactor".toList
        prompt_mode := .full
        tool_profile := .coding
        elevated := false } := by decide

example : (parse_directives "/full /minimal a".toList).tool_profile = .full := by decide

/-- A word is all lowercase ASCII letters, as the ten directive words are. -/
def allLower (w : Str) : Prop := ∀ c ∈ w, isAsciiLower c = true

instance allLowerDecidable (w : Str) : Decidable (allLower w) :=
  inferInstanceAs (Decidable (∀ c ∈ w, isAsciiLower c = true))

theorem isWordChar_of_space {c : Char} (h : isSpaceChar c = true) :
    isWordChar c = false := by
  simp only [isSpaceChar, Bool.or_eq_true, decide_eq_true_eq] at h
  simp only [isWordChar, isAsciiUpper, isAsciiLower, isDigitChar, Bool.or_eq_false_iff,
    Bool.and_eq_false_iff, decide_eq_false_iff_not, not_le]
  omega

theorem space_beq_slash {c : Char} (h : isSpaceChar c = true) :
    (c == '/') = false := by
  rw [beq_eq_false_iff_ne]
  intro he
  subst he
  exact absurd h (by decide)

theorem lc_space_ne {c a : Char} (h : isSpaceChar c = true)
    (ha : isAsciiLower a = true) : (lcChar c == a) = false := by
  have hu : lcChar c = c := by
    simp only [isSpaceChar, Bool.or_eq_true, decide_eq_true_eq] at h
    simp only [lcChar, isAsciiUpper, ite_eq_right_iff, Bool.and_eq_true,
      decide_eq_true_eq, and_imp]
    omega
  rw [hu, beq_eq_false_iff_ne]
  intro he
  subst he
  simp only [isSpaceChar, Bool.or_eq_true, decide_eq_true_eq] at h
  simp only [isAsciiLower, Bool.and_eq_true, decide_eq_true_eq] at ha
  omega

theorem word_of_lc_match {d a : Char} (ha : isAsciiLower a = true)
    (h : (lcChar d == a) = true) : isWordChar d = true ∧ (d == '/') = false := by
  constructor
  · by_cases hu : isAsciiUpper d = true
    · simp [isWordChar, hu]
    · have hl : lcChar d = d := by simp [lcChar, hu]
      rw [hl] at h
      have hd : d = a := beq_iff_eq.mp h
      subst hd
      simp [isWordChar, ha]
  · rw [beq_eq_false_iff_ne]
    intro hd
    subst hd
    rw [show lcChar '/' = '/' from by decide] at h
    have hsl := beq_iff_eq.mp h
    rw [← hsl] at ha
    exact absurd ha (by decide)

theorem slash_not_word : isWordChar '/' = false := by decide

theorem letterMatch_nil_pat (s : Str) : letterMatch [] s = boundaryOk s := by
  simp [letterMatch, ciStarts]

theorem letterMatch_cons_nil (a : Char) (v : Str) : letterMatch (a :: v) [] = false := by
  simp [letterMatch, ciStarts]

theorem letterMatch_cons_pat (a : Char) (v : Str) (d : Char) (s : Str) :
    letterMatch (a :: v) (d :: s) = ((lcChar d == a) && letterMatch v s) := by
  simp [letterMatch, ciStarts, Bool.and_assoc, List.length_cons, List.drop_succ_cons]

theorem matchesTok_cons (w : Str) (c : Char) (cs : Str) :
    matchesTok w (c :: cs) = ((c == '/') && letterMatch w cs) := rfl

theorem hasTok_cons (w : Str) (c : Char) (cs : Str) :
    hasTok w (c :: cs) = (matchesTok w (c :: cs) || hasTok w cs) := rfl

theorem boundaryOk_removeTok_aux (w : Str) :
    ∀ (n : Nat) (s : Str), s.length ≤ n → boundaryOk s = true →
      boundaryOk (removeTok w s) = true := by
  intro n
  induction n with
  | zero =>
    intro s hs _
    rw [List.length_eq_zero.mp (Nat.le_zero.mp hs)]
    rfl
  | succ n ih =>
    intro s hs hb
    cases s with
    | nil => rfl
    | cons c cs =>
      rw [removeTok_cons]
      by_cases hm : matchesTok w (c :: cs) = true
      · rw [if_pos hm]
        have hbd : boundaryOk (cs.drop w.length) = true := by
          simp only [matchesTok_cons, letterMatch, Bool.and_eq_true] at hm
          exact hm.2.2
        refine ih _ ?_ hbd
        have := List.length_drop w.length cs
        simp only [List.length_cons, Nat.succ_le_succ_iff] at hs
        omega
      · rw [if_neg hm]
        simpa [boundaryOk] using hb

theorem boundaryOk_removeTok (w : Str) (s : Str) (hb : boundaryOk s = true) :
    boundaryOk (removeTok w s) = true :=
  boundaryOk_removeTok_aux w s.length s le_rfl hb

theorem boundaryOk_removeTok_eq (p : Str) (x : Str) :
    boundaryOk (removeTok p x) = boundaryOk x := by
  cases x with
  | nil => rfl
  | cons d xs =>
    rw [removeTok_cons]
    by_cases hm : matchesTok p (d :: xs) = true
    · rw [if_pos hm]
      simp only [matchesTok_cons, letterMatch, Bool.and_eq_true, beq_iff_eq] at hm
      obtain ⟨hc, -, hbd⟩ := hm
      rw [boundaryOk_removeTok p _ hbd]
      subst hc
      simp [boundaryOk, slash_not_word]
    · rw [if_neg hm]
      simp [boundaryOk]

theorem ciStarts_of_boundary {a : Char} {v z : Str} (ha : isAsciiLower a = true)
    (hb : boundaryOk z = true) : ciStarts (a :: v) z = false := by
  cases z with
  | nil => rfl
  | cons e es =>
    simp only [boundaryOk, Bool.not_eq_true'] at hb
    simp only [ciStarts, Bool.and_eq_false_iff]
    left
    by_contra h
    simp only [Bool.not_eq_false] at h
    exact absurd (word_of_lc_match ha h).1 (by simp [hb])

theorem letterMatch_removeTok (p : Str) :
    ∀ (v : Str), allLower v → ∀ (x : Str),
      letterMatch v (removeTok p x) = letterMatch v x := by
  intro v
  induction v with
  | nil =>
    intro _ x
    rw [letterMatch_nil_pat, letterMatch_nil_pat]
    exact boundaryOk_removeTok_eq p x
  | cons a v ih =>
    intro hv x
    have ha : isAsciiLower a = true := hv a (by simp)
    have hv' : allLower v := fun c hc => hv c (by simp [hc])
    cases x with
    | nil => rfl
    | cons d xs =>
      rw [removeTok_cons]
      by_cases hm : matchesTok p (d :: xs) = true
      · rw [if_pos hm]
        simp only [matchesTok_cons, letterMatch, Bool.and_eq_true, beq_iff_eq] at hm
        have hbd := boundaryOk_removeTok p _ hm.2.2
        rw [letterMatch_cons_pat]
        have h1 : ciStarts (a :: v) (removeTok p (xs.drop p.length)) = false :=
          ciStarts_of_boundary ha hbd
        have h2 : (lcChar d == a) = false := by
          rw [hm.1]
          by_contra hcon
          simp only [Bool.not_eq_false] at hcon
          exact absurd (word_of_lc_match ha hcon).2 (by simp)
        simp [letterMatch, h1, h2]
      · rw [if_neg hm]
        rw [letterMatch_cons_pat, letterMatch_cons_pat, ih hv' xs]

theorem letterMatch_unique :
    ∀ (w : Str), allLower w → ∀ (p : Str), allLower p → ∀ (cs : Str),
      letterMatch w cs = true → letterMatch p cs = true → w = p := by
  intro w
  induction w with
  | nil =>
    intro _ p hp cs hw hcs
    cases p with
    | nil => rfl
    | cons b p' =>
      rw [letterMatch_nil_pat] at hw
      have := ciStarts_of_boundary (v := p') (hp b (by simp)) hw
      simp [letterMatch, this] at hcs
  | cons a w' ih =>
    intro hw p hp cs hwm hpm
    have ha : isAsciiLower a = true := hw a (by simp)
    cases p with
    | nil =>
      rw [letterMatch_nil_pat] at hpm
      have := ciStarts_of_boundary (v := w') ha hpm
      simp [letterMatch, this] at hwm
    | cons b p' =>
      cases cs with
      | nil => simp [letterMatch_cons_nil] at hwm
      | cons d ds =>
        rw [letterMatch_cons_pat, Bool.and_eq_true] at hwm hpm
        have hab : a = b := by
          have h1 := beq_iff_eq.mp hwm.1
          have h2 := beq_iff_eq.mp hpm.1
          rw [← h1, ← h2]
        have hw' : allLower w' := fun c hc => hw c (by simp [hc])
        have hp' : allLower p' := fun c hc => hp c (by simp [hc])
        rw [hab, ih hw' p' hp' ds hwm.2 hpm.2]

theorem hasTok_drop_of_ciStarts (q : Str) :
    ∀ (p : Str), allLower p → ∀ (cs : Str), ciStarts p cs = true →
      hasTok q cs = hasTok q (cs.drop p.length) := by
  intro p
  induction p with
  | nil => intro _ cs _; simp
  | cons a p' ih =>
    intro hp cs hcs
    cases cs with
    | nil => simp [ciStarts] at hcs
    | cons x cs' =>
      simp only [ciStarts, Bool.and_eq_true] at hcs
      have hx : (x == '/') = false :=
        (word_of_lc_match (hp a (by simp)) hcs.1).2
      have hp' : allLower p' := fun c hc => hp c (by simp [hc])
      rw [hasTok_cons, matchesTok_cons, hx]
      simp only [Bool.false_and, Bool.false_or, List.length_cons, List.drop_succ_cons]
      exact ih hp' cs' hcs.2

theorem matchesTok_head_of_removeTok (p q : Str) (hq : allLower q) (c : Char) (cs : Str) :
    matchesTok q (c :: removeTok p cs) = matchesTok q (c :: cs) := by
  rw [matchesTok_cons, matchesTok_cons, letterMatch_removeTok p q hq cs]

theorem hasTok_removeTok_ne_aux (p q : Str) (hp : allLower p) (hq : allLower q)
    (hne : q ≠ p) :
    ∀ (n : Nat) (s : Str), s.length ≤ n → hasTok q (removeTok p s) = hasTok q s := by
  intro n
  induction n with
  | zero =>
    intro s hs
    rw [List.length_eq_zero.mp (Nat.le_zero.mp hs)]
    rfl
  | succ n ih =>
    intro s hs
    cases s with
    | nil => rfl
    | cons c cs =>
      rw [removeTok_cons]
      by_cases hm : matchesTok p (c :: cs) = true
      · rw [if_pos hm]
        simp only [matchesTok_cons, Bool.and_eq_true, beq_iff_eq] at hm
        have hlen : (cs.drop p.length).length ≤ n := by
          have := List.length_drop p.length cs
          simp only [List.length_cons, Nat.succ_le_succ_iff] at hs
          omega
        rw [ih _ hlen]
        rw [hasTok_cons]
        have hmq : matchesTok q (c :: cs) = false := by
          rw [matchesTok_cons]
          by_cases hlq : letterMatch q cs = true
          · exact absurd (letterMatch_unique q hq p hp cs hlq hm.2) hne
          · simp [Bool.not_eq_true] at hlq
            simp [hlq]
        rw [hmq]
        simp only [Bool.false_or]
        exact (hasTok_drop_of_ciStarts q p hp cs (by
          have := hm.2
          simp only [letterMatch, Bool.and_eq_true] at this
          exact this.1)).symm
      · rw [if_neg hm]
        rw [hasTok_cons, hasTok_cons]
        rw [matchesTok_head_of_removeTok p q hq c cs]
        have hlen : cs.length ≤ n := by
          simp only [List.length_cons, Nat.succ_le_succ_iff] at hs
          exact hs
        rw [ih _ hlen]

/-- Removal of one directive token does not affect searches for a
different directive token: the ten token words are pairwise distinct
lowercase words and their matches are disjoint. -/
theorem hasTok_removeTok_ne (p q : Str) (hp : allLower p) (hq : allLower q)
    (hne : q ≠ p) (s : Str) : hasTok q (removeTok p s) = hasTok q s :=
  hasTok_removeTok_ne_aux p q hp hq hne s.length s le_rfl

theorem hasTok_removeTok_self_aux (p : Str) (hp : allLower p) :
    ∀ (n : Nat) (s : Str), s.length ≤ n → hasTok p (removeTok p s) = false := by
  intro n
  induction n with
  | zero =>
    intro s hs
    rw [List.length_eq_zero.mp (Nat.le_zero.mp hs)]
    rfl
  | succ n ih =>
    intro s hs
    cases s with
    | nil => rfl
    | cons c cs =>
      rw [removeTok_cons]
      by_cases hm : matchesTok p (c :: cs) = true
      · rw [if_pos hm]
        refine ih _ ?_
        have := List.length_drop p.length cs
        simp only [List.length_cons, Nat.succ_le_succ_iff] at hs
        omega
      · rw [if_neg hm]
        rw [hasTok_cons, matchesTok_head_of_removeTok p p hp c cs]
        have hlen : cs.length ≤ n := by
          simp only [List.length_cons, Nat.succ_le_succ_iff] at hs
          exact hs
        simp only [Bool.not_eq_true] at hm
        rw [hm, ih _ hlen]
        rfl

/-- Model of the fact that `re.sub` removes every match: after removal of
the token `/<p>\b` no further match of it remains. -/
theorem hasTok_removeTok_self (p : Str) (hp : allLower p) (s : Str) :
    hasTok p (removeTok p s) = false :=
  hasTok_removeTok_self_aux p hp s.length s le_rfl

theorem dropWhile_length_le (p : Char → Bool) (l : Str) :
    (l.dropWhile p).length ≤ l.length := by
  induction l with
  | nil => simp
  | cons c cs ih =>
    rw [List.dropWhile_cons]
    by_cases h : p c = true
    · simp only [h, if_true]
      exact Nat.le_succ_of_le ih
    · simp [h]

theorem dropWhile_head_false {p : Char → Bool} {l r : Str} {c : Char}
    (h : l.dropWhile p = c :: r) : p c = false := by
  induction l with
  | nil => simp at h
  | cons d ds ih =>
    rw [List.dropWhile_cons] at h
    by_cases hd : p d = true
    · exact ih (by simpa [hd] using h)
    · rw [if_neg hd] at h
      injection h with h1 _
      rw [← h1]
      simpa using hd

theorem dropWhile_space_idem (l : Str) :
    (l.dropWhile isSpaceChar).dropWhile isSpaceChar = l.dropWhile isSpaceChar := by
  cases h : l.dropWhile isSpaceChar with
  | nil => rfl
  | cons c r => rw [List.dropWhile_cons, dropWhile_head_false h]; simp

theorem hasTok_dropWhile_space (w : Str) (s : Str) :
    hasTok w (s.dropWhile isSpaceChar) = hasTok w s := by
  induction s with
  | nil => rfl
  | cons c cs ih =>
    rw [List.dropWhile_cons]
    by_cases h : isSpaceChar c = true
    · rw [if_pos h, ih, hasTok_cons, matchesTok_cons, space_beq_slash h]
      simp
    · simp [h]

theorem allSpace_of_stripEnd_nil :
    ∀ (cs : Str), stripEnd cs = [] → ∀ c ∈ cs, isSpaceChar c = true := by
  intro cs
  induction cs with
  | nil => intro _ c hc; simp at hc
  | cons d ds ih =>
    intro h c hc
    rw [stripEnd] at h
    cases hds : stripEnd ds with
    | nil =>
      rw [hds] at h
      by_cases hsp : isSpaceChar d = true
      · rcases List.mem_cons.mp hc with rfl | hmem
        · exact hsp
        · exact ih hds c hmem
      · simp [hsp] at h
    | cons e r => rw [hds] at h; simp at h

theorem letterMatch_allSpace {cs : Str} (h : ∀ c ∈ cs, isSpaceChar c = true) :
    ∀ (v : Str), allLower v → letterMatch v cs = letterMatch v [] := by
  intro v hv
  cases v with
  | nil =>
    rw [letterMatch_nil_pat, letterMatch_nil_pat]
    cases cs with
    | nil => rfl
    | cons d ds =>
      simp [boundaryOk, isWordChar_of_space (h d (by simp))]
  | cons a v' =>
    cases cs with
    | nil => rfl
    | cons d ds =>
      rw [letterMatch_cons_pat, letterMatch_cons_nil,
        lc_space_ne (h d (by simp)) (hv a (by simp))]
      simp

theorem hasTok_allSpace {cs : Str} (h : ∀ c ∈ cs, isSpaceChar c = true) (w : Str) :
    hasTok w cs = false := by
  induction cs with
  | nil => rfl
  | cons d ds ih =>
    rw [hasTok_cons, matchesTok_cons, space_beq_slash (h d (by simp))]
    simp only [Bool.false_and, Bool.false_or]
    exact ih (fun c hc => h c (by simp [hc]))

theorem stripEnd_cons_nil {c : Char} {cs : Str} (h : stripEnd cs = []) :
    stripEnd (c :: cs) = if isSpaceChar c then [] else [c] := by
  rw [stripEnd, h]

theorem stripEnd_cons_cons {c : Char} {cs : Str} {d : Char} {r : Str}
    (h : stripEnd cs = d :: r) : stripEnd (c :: cs) = c :: d :: r := by
  rw [stripEnd, h]

theorem stripEnd_head : ∀ {cs : Str} {d : Char} {r : Str},
    stripEnd cs = d :: r → ∃ cs', cs = d :: cs' := by
  intro cs d r h
  cases cs with
  | nil => simp [stripEnd] at h
  | cons e es =>
    cases hes : stripEnd es with
    | nil =>
      rw [stripEnd_cons_nil hes] at h
      by_cases hsp : isSpaceChar e = true
      · simp [hsp] at h
      · rw [if_neg hsp] at h
        injection h with h1 _
        exact ⟨es, by rw [h1]⟩
    | cons f r' =>
      rw [stripEnd_cons_cons hes] at h
      injection h with h1 _
      exact ⟨es, by rw [h1]⟩

theorem letterMatch_stripEnd :
    ∀ (v : Str), allLower v → ∀ (x : Str),
      letterMatch v (stripEnd x) = letterMatch v x := by
  intro v
  induction v with
  | nil =>
    intro _ x
    rw [letterMatch_nil_pat, letterMatch_nil_pat]
    cases x with
    | nil => rfl
    | cons c cs =>
      cases hcs : stripEnd cs with
      | nil =>
        rw [stripEnd_cons_nil hcs]
        by_cases hsp : isSpaceChar c = true
        · simp [hsp, boundaryOk, isWordChar_of_space hsp]
        · simp [hsp, boundaryOk]
      | cons d r => rw [stripEnd_cons_cons hcs]; simp [boundaryOk]
  | cons a v' ih =>
    intro hv x
    have ha : isAsciiLower a = true := hv a (by simp)
    have hv' : allLower v' := fun c hc => hv c (by simp [hc])
    cases x with
    | nil => rfl
    | cons c cs =>
      cases hcs : stripEnd cs with
      | nil =>
        rw [stripEnd_cons_nil hcs]
        have hall := allSpace_of_stripEnd_nil cs hcs
        by_cases hsp : isSpaceChar c = true
        · rw [if_pos hsp, letterMatch_cons_nil, letterMatch_cons_pat,
            lc_space_ne hsp ha]
          simp
        · rw [if_neg hsp, letterMatch_cons_pat, letterMatch_cons_pat,
            letterMatch_allSpace hall v' hv']
      | cons d r =>
        rw [stripEnd_cons_cons hcs, letterMatch_cons_pat, letterMatch_cons_pat,
          ← hcs, ih hv' cs]

theorem hasTok_stripEnd (w : Str) (hw : allLower w) (hne : w ≠ []) :
    ∀ (x : Str), hasTok w (stripEnd x) = hasTok w x := by
  intro x
  induction x with
  | nil => rfl
  | cons c cs ih =>
    cases hcs : stripEnd cs with
    | nil =>
      rw [stripEnd_cons_nil hcs]
      have hall := allSpace_of_stripEnd_nil cs hcs
      by_cases hsp : isSpaceChar c = true
      · rw [if_pos hsp]
        rw [hasTok_cons, matchesTok_cons, space_beq_slash hsp, hasTok_allSpace hall]
        rfl
      · rw [if_neg hsp]
        rw [hasTok_cons, hasTok_cons, matchesTok_cons, matchesTok_cons,
          hasTok_allSpace hall]
        cases w with
        | nil => exact absurd rfl hne
        | cons a w' =>
          rw [letterMatch_cons_nil, letterMatch_allSpace hall _ hw, letterMatch_cons_nil]
          rfl
    | cons d r =>
      have h1 : letterMatch w (d :: r) = letterMatch w cs := by
        rw [← hcs]
        exact letterMatch_stripEnd w hw cs
      have h2 : hasTok w (d :: r) = hasTok w cs := by
        rw [← hcs]
        exact ih
      rw [stripEnd_cons_cons hcs, hasTok_cons w c (d :: r), hasTok_cons w c cs,
        matchesTok_cons w c (d :: r), matchesTok_cons w c cs, h1, h2]

theorem letterMatch_collapseWs :
    ∀ (v : Str), allLower v → ∀ (x : Str),
      letterMatch v (collapseWs x) = letterMatch v x := by
  intro v
  induction v with
  | nil =>
    intro _ x
    rw [letterMatch_nil_pat, letterMatch_nil_pat]
    cases x with
    | nil => rfl
    | cons c cs =>
      rw [collapseWs_cons]
      by_cases hsp : isSpaceChar c = true
      · simp [hsp, boundaryOk, isWordChar_of_space hsp,
          isWordChar_of_space (show isSpaceChar ' ' = true by decide)]
      · simp [hsp, boundaryOk]
  | cons a v' ih =>
    intro hv x
    have ha : isAsciiLower a = true := hv a (by simp)
    have hv' : allLower v' := fun c hc => hv c (by simp [hc])
    cases x with
    | nil => rfl
    | cons c cs =>
      rw [collapseWs_cons]
      by_cases hsp : isSpaceChar c = true
      · rw [if_pos hsp, letterMatch_cons_pat, letterMatch_cons_pat,
          lc_space_ne (show isSpaceChar ' ' = true by decide) ha, lc_space_ne hsp ha]
        simp
      · rw [if_neg hsp, letterMatch_cons_pat, letterMatch_cons_pat, ih hv' cs]

theorem hasTok_collapseWs_aux (w : Str) (hw : allLower w) :
    ∀ (n : Nat) (x : Str), x.length ≤ n → hasTok w (collapseWs x) = hasTok w x := by
  intro n
  induction n with
  | zero =>
    intro x hx
    rw [List.length_eq_zero.mp (Nat.le_zero.mp hx)]
    rfl
  | succ n ih =>
    intro x hx
    cases x with
    | nil => rfl
    | cons c cs =>
      simp only [List.length_cons, Nat.succ_le_succ_iff] at hx
      rw [collapseWs_cons]
      by_cases hsp : isSpaceChar c = true
      · rw [if_pos hsp]
        rw [hasTok_cons, matchesTok_cons,
          space_beq_slash (show isSpaceChar ' ' = true by decide)]
        simp only [Bool.false_and, Bool.false_or]
        rw [ih _ (le_trans (dropWhile_length_le _ _) hx), hasTok_dropWhile_space,
          hasTok_cons, matchesTok_cons, space_beq_slash hsp]
        simp
      · rw [if_neg hsp]
        rw [hasTok_cons, hasTok_cons, matchesTok_cons, matchesTok_cons,
          letterMatch_collapseWs w hw cs, ih _ hx]

theorem hasTok_collapseWs (w : Str) (hw : allLower w) (x : Str) :
    hasTok w (collapseWs x) = hasTok w x :=
  hasTok_collapseWs_aux w hw x.length x le_rfl

/-- Searching for a directive token commutes with the final whitespace
cleanup of `parse_directives`. -/
theorem hasTok_cleanWs (w : Str) (hw : allLower w) (hne : w ≠ []) (s : Str) :
    hasTok w (cleanWs s) = hasTok w s := by
  rw [cleanWs, pyStrip, hasTok_dropWhile_space, hasTok_stripEnd w hw hne,
    hasTok_collapseWs w hw]

theorem collapseWs_dropWhile_self (l : Str) :
    (collapseWs (l.dropWhile isSpaceChar)).dropWhile isSpaceChar =
      collapseWs (l.dropWhile isSpaceChar) := by
  cases h : l.dropWhile isSpaceChar with
  | nil => rfl
  | cons d ds =>
    rw [collapseWs_cons, if_neg (by simp [dropWhile_head_false h]),
      List.dropWhile_cons, dropWhile_head_false h]
    simp

theorem collapseWs_idem_aux :
    ∀ (n : Nat) (s : Str), s.length ≤ n → collapseWs (collapseWs s) = collapseWs s := by
  intro n
  induction n with
  | zero =>
    intro s hs
    rw [List.length_eq_zero.mp (Nat.le_zero.mp hs)]
    rfl
  | succ n ih =>
    intro s hs
    cases s with
    | nil => rfl
    | cons c cs =>
      simp only [List.length_cons, Nat.succ_le_succ_iff] at hs
      rw [collapseWs_cons]
      by_cases hsp : isSpaceChar c = true
      · rw [if_pos hsp, collapseWs_cons, if_pos (by decide), collapseWs_dropWhile_self,
          ih _ (le_trans (dropWhile_length_le _ _) hs)]
      · rw [if_neg hsp, collapseWs_cons, if_neg hsp, ih _ hs]

theorem collapseWs_idem (s : Str) : collapseWs (collapseWs s) = collapseWs s :=
  collapseWs_idem_aux s.length s le_rfl

theorem stripEnd_idem : ∀ (s : Str), stripEnd (stripEnd s) = stripEnd s := by
  intro s
  induction s with
  | nil => rfl
  | cons c cs ih =>
    cases hcs : stripEnd cs with
    | nil =>
      rw [stripEnd_cons_nil hcs]
      by_cases hsp : isSpaceChar c = true
      · rw [if_pos hsp]
        rfl
      · rw [if_neg hsp, stripEnd_cons_nil (show stripEnd ([] : Str) = [] from rfl), if_neg hsp]
    | cons d r =>
      rw [stripEnd_cons_cons hcs]
      rw [hcs] at ih
      exact stripEnd_cons_cons ih

theorem stripEnd_dropWhile (z : Str) (h : stripEnd z = z) :
    stripEnd (z.dropWhile isSpaceChar) = z.dropWhile isSpaceChar := by
  induction z with
  | nil => rfl
  | cons c cs ih =>
    rw [List.dropWhile_cons]
    by_cases hsp : isSpaceChar c = true
    · rw [if_pos hsp]
      cases hcs : stripEnd cs with
      | nil =>
        rw [stripEnd_cons_nil hcs, if_pos hsp] at h
        simp at h
      | cons d r =>
        rw [stripEnd_cons_cons hcs] at h
        injection h with _ h2
        rw [h2] at hcs
        exact ih hcs
    · rw [if_neg hsp]
      exact h

theorem collapse_fix_head {z : Str} {c : Char} {cs : Str}
    (h : collapseWs z = c :: cs) (hsp : isSpaceChar c = true) :
    c = ' ' := by
  cases z with
  | nil => simp [collapseWs, collapseWsAux] at h
  | cons d ds =>
    rw [collapseWs_cons] at h
    by_cases hd : isSpaceChar d = true
    · rw [if_pos hd] at h
      exact ((List.cons.injEq ..).mp h).1.symm
    · rw [if_neg hd] at h
      obtain ⟨h1, -⟩ := (List.cons.injEq ..).mp h
      rw [h1] at hd
      exact absurd hsp hd

theorem collapse_fix_dropWhile (z : Str) (h : collapseWs z = z) :
    collapseWs (z.dropWhile isSpaceChar) = z.dropWhile isSpaceChar := by
  cases z with
  | nil => rfl
  | cons c cs =>
    rw [List.dropWhile_cons]
    by_cases hsp : isSpaceChar c = true
    · rw [if_pos hsp]
      rw [collapseWs_cons, if_pos hsp] at h
      obtain ⟨-, h2⟩ := (List.cons.injEq ..).mp h
      have hfix : collapseWs cs = cs := by
        conv_lhs => rw [← h2]
        rw [collapseWs_idem, h2]
      have hdw : cs.dropWhile isSpaceChar = cs := by
        conv_lhs => rw [← h2]
        rw [collapseWs_dropWhile_self, h2]
      rw [hdw]
      exact hfix
    · rw [if_neg hsp]
      exact h

theorem collapse_fix_stripEnd (z : Str) (h : collapseWs z = z) :
    collapseWs (stripEnd z) = stripEnd z := by
  induction z with
  | nil => rfl
  | cons c cs ih =>
    by_cases hsp : isSpaceChar c = true
    · rw [collapseWs_cons, if_pos hsp] at h
      obtain ⟨hc, h2⟩ := (List.cons.injEq ..).mp h
      have hfix : collapseWs cs = cs := by
        conv_lhs => rw [← h2]
        rw [collapseWs_idem, h2]
      have hdw : cs.dropWhile isSpaceChar = cs := by
        conv_lhs => rw [← h2]
        rw [collapseWs_dropWhile_self, h2]
      cases hcs : stripEnd cs with
      | nil =>
        rw [stripEnd_cons_nil hcs, if_pos hsp]
        rfl
      | cons d r =>
        rw [stripEnd_cons_cons hcs]
        have hdns : isSpaceChar d = false := by
          obtain ⟨cs', hcs'⟩ := stripEnd_head hcs
          have hthis : cs.dropWhile isSpaceChar = cs := hdw
          rw [hcs'] at hthis
          by_contra hcon
          simp only [Bool.not_eq_false] at hcon
          rw [List.dropWhile_cons, if_pos hcon] at hthis
          have hlen := dropWhile_length_le isSpaceChar cs'
          rw [hthis] at hlen
          simp only [List.length_cons] at hlen
          omega
        have hrec : collapseWs (d :: r) = d :: r := by
          have h3 := ih hfix
          rw [hcs] at h3
          exact h3
        rw [collapseWs_cons, if_pos hsp, List.dropWhile_cons, hdns]
        simp only [Bool.false_eq_true, if_false]
        rw [hrec, hc]
    · rw [collapseWs_cons, if_neg hsp] at h
      obtain ⟨-, h2⟩ := (List.cons.injEq ..).mp h
      have hfix : collapseWs cs = cs := by
        conv_lhs => rw [← h2]
        rw [collapseWs_idem, h2]
      cases hcs : stripEnd cs with
      | nil =>
        rw [stripEnd_cons_nil hcs, if_neg hsp, collapseWs_cons, if_neg hsp]
        rfl
      | cons d r =>
        rw [stripEnd_cons_cons hcs, collapseWs_cons, if_neg hsp, ← hcs, ih hfix]

/-- The whitespace cleanup of `parse_directives` is idempotent: a cleaned
text passes through it unchanged. -/
theorem cleanWs_idem (s : Str) : cleanWs (cleanWs s) = cleanWs s := by
  have hfix : collapseWs (cleanWs s) = cleanWs s := by
    rw [cleanWs, pyStrip]
    exact collapse_fix_dropWhile _ (collapse_fix_stripEnd _ (collapseWs_idem s))
  rw [cleanWs, hfix]
  show ((stripEnd (cleanWs s)).dropWhile isSpaceChar) = cleanWs s
  rw [cleanWs, pyStrip]
  rw [stripEnd_dropWhile _ (stripEnd_idem _), dropWhile_space_idem]

theorem stepRemove_id (w s : Str) (h : hasTok w s = false) : stepRemove w s = s := by
  rw [stepRemove, h]
  simp

theorem hasTok_stepRemove_ne (p q : Str) (hp : allLower p) (hq : allLower q)
    (hne : q ≠ p) (s : Str) : hasTok q (stepRemove p s) = hasTok q s := by
  rw [stepRemove]
  by_cases h : hasTok p s = true
  · rw [if_pos h, hasTok_removeTok_ne p q hp hq hne]
  · rw [if_neg h]

theorem hasTok_stepRemove_self (q : Str) (hq : allLower q) (s : Str) :
    hasTok q (stepRemove q s) = false := by
  rw [stepRemove]
  by_cases h : hasTok q s = true
  · rw [if_pos h, hasTok_removeTok_self q hq]
  · rw [if_neg h]
    exact Bool.not_eq_true _ ▸ h

theorem hasTok_cThink_ne {q : Str} (hq : allLower q) (h1 : q ≠ wThink) (t : Str) :
    hasTok q (cThink t) = hasTok q t :=
  hasTok_stepRemove_ne wThink q (by decide) hq h1 t

theorem hasTok_cVerbose_ne {q : Str} (hq : allLower q) (h1 : q ≠ wThink)
    (h2 : q ≠ wVerbose) (t : Str) : hasTok q (cVerbose t) = hasTok q t := by
  rw [cVerbose, hasTok_stepRemove_ne wVerbose q (by decide) hq h2, hasTok_cThink_ne hq h1]

theorem hasTok_cReasoning_ne {q : Str} (hq : allLower q) (h1 : q ≠ wThink)
    (h2 : q ≠ wVerbose) (h3 : q ≠ wReasoning) (t : Str) :
    hasTok q (cReasoning t) = hasTok q t := by
  rw [cReasoning, hasTok_stepRemove_ne wReasoning q (by decide) hq h3,
    hasTok_cVerbose_ne hq h1 h2]

theorem hasTok_cElevated_ne {q : Str} (hq : allLower q) (h1 : q ≠ wThink)
    (h2 : q ≠ wVerbose) (h3 : q ≠ wReasoning) (h4 : q ≠ wElevated) (t : Str) :
    hasTok q (cElevated t) = hasTok q t := by
  rw [cElevated, hasTok_stepRemove_ne wElevated q (by decide) hq h4,
    hasTok_cReasoning_ne hq h1 h2 h3]

theorem hasTok_cMinimal_ne {q : Str} (hq : allLower q) (h1 : q ≠ wThink)
    (h2 : q ≠ wVerbose) (h3 : q ≠ wReasoning) (h4 : q ≠ wElevated)
    (h5 : q ≠ wMinimal) (t : Str) : hasTok q (cMinimal t) = hasTok q t := by
  rw [cMinimal, hasTok_stepRemove_ne wMinimal q (by decide) hq h5,
    hasTok_cElevated_ne hq h1 h2 h3 h4]

theorem hasTok_cCoding_ne {q : Str} (hq : allLower q) (h1 : q ≠ wThink)
    (h2 : q ≠ wVerbose) (h3 : q ≠ wReasoning) (h4 : q ≠ wElevated)
    (h5 : q ≠ wMinimal) (h6 : q ≠ wCoding) (t : Str) :
    hasTok q (cCoding t) = hasTok q t := by
  rw [cCoding, hasTok_stepRemove_ne wCoding q (by decide) hq h6,
    hasTok_cMinimal_ne hq h1 h2 h3 h4 h5]

theorem hasTok_cMessaging_ne {q : Str} (hq : allLower q) (h1 : q ≠ wThink)
    (h2 : q ≠ wVerbose) (h3 : q ≠ wReasoning) (h4 : q ≠ wElevated)
    (h5 : q ≠ wMinimal) (h6 : q ≠ wCoding) (h7 : q ≠ wMessaging) (t : Str) :
    hasTok q (cMessaging t) = hasTok q t := by
  rw [cMessaging, hasTok_stepRemove_ne wMessaging q (by decide) hq h7,
    hasTok_cCoding_ne hq h1 h2 h3 h4 h5 h6]

theorem hasTok_cFull_ne {q : Str} (hq : allLower q) (h1 : q ≠ wThink)
    (h2 : q ≠ wVerbose) (h3 : q ≠ wReasoning) (h4 : q ≠ wElevated)
    (h5 : q ≠ wMinimal) (h6 : q ≠ wCoding) (h7 : q ≠ wMessaging)
    (h8 : q ≠ wFull) (t : Str) : hasTok q (cFull t) = hasTok q t := by
  rw [cFull, hasTok_stepRemove_ne wFull q (by decide) hq h8,
    hasTok_cMessaging_ne hq h1 h2 h3 h4 h5 h6 h7]

theorem hasTok_cQuiet_ne {q : Str} (hq : allLower q) (h1 : q ≠ wThink)
    (h2 : q ≠ wVerbose) (h3 : q ≠ wReasoning) (h4 : q ≠ wElevated)
    (h5 : q ≠ wMinimal) (h6 : q ≠ wCoding) (h7 : q ≠ wMessaging)
    (h8 : q ≠ wFull) (h9 : q ≠ wQuiet) (t : Str) :
    hasTok q (cQuiet t) = hasTok q t := by
  rw [cQuiet, hasTok_stepRemove_ne wQuiet q (by decide) hq h9,
    hasTok_cFull_ne hq h1 h2 h3 h4 h5 h6 h7 h8]

theorem hasTok_cSilent_ne {q : Str} (hq : allLower q) (h1 : q ≠ wThink)
    (h2 : q ≠ wVerbose) (h3 : q ≠ wReasoning) (h4 : q ≠ wElevated)
    (h5 : q ≠ wMinimal) (h6 : q ≠ wCoding) (h7 : q ≠ wMessaging)
    (h8 : q ≠ wFull) (h9 : q ≠ wQuiet) (h10 : q ≠ wSilent) (t : Str) :
    hasTok q (cSilent t) = hasTok q t := by
  rw [cSilent, hasTok_stepRemove_ne wSilent q (by decide) hq h10,
    hasTok_cQuiet_ne hq h1 h2 h3 h4 h5 h6 h7 h8 h9]

/-- The list of all ten directive token words of `directives.py`. -/
def knownWords : List Str :=
  [wThink, wVerbose, wReasoning, wElevated, wMinimal, wCoding, wMessaging,
    wFull, wQuiet, wSilent]

/-- After the full removal pipeline no known token remains in the text. -/
theorem hasTok_cSilent_known (t : Str) :
    ∀ w ∈ knownWords, hasTok w (cSilent t) = false := by
  intro w hw
  simp only [knownWords, List.mem_cons, List.not_mem_nil, or_false] at hw
  rcases hw with rfl | rfl | rfl | rfl | rfl | rfl | rfl | rfl | rfl | rfl
  · rw [cSilent, hasTok_stepRemove_ne wSilent wThink (by decide) (by decide) (by decide),
      cQuiet, hasTok_stepRemove_ne wQuiet wThink (by decide) (by decide) (by decide),
      cFull, hasTok_stepRemove_ne wFull wThink (by decide) (by decide) (by decide),
      cMessaging, hasTok_stepRemove_ne wMessaging wThink (by decide) (by decide) (by decide),
      cCoding, hasTok_stepRemove_ne wCoding wThink (by decide) (by decide) (by decide),
      cMinimal, hasTok_stepRemove_ne wMinimal wThink (by decide) (by decide) (by decide),
      cElevated, hasTok_stepRemove_ne wElevated wThink (by decide) (by decide) (by decide),
      cReasoning, hasTok_stepRemove_ne wReasoning wThink (by decide) (by decide) (by decide),
      cVerbose, hasTok_stepRemove_ne wVerbose wThink (by decide) (by decide) (by decide),
      cThink, hasTok_stepRemove_self wThink (by decide)]
  · rw [cSilent, hasTok_stepRemove_ne wSilent wVerbose (by decide) (by decide) (by decide),
      cQuiet, hasTok_stepRemove_ne wQuiet wVerbose (by decide) (by decide) (by decide),
      cFull, hasTok_stepRemove_ne wFull wVerbose (by decide) (by decide) (by decide),
      cMessaging, hasTok_stepRemove_ne wMessaging wVerbose (by decide) (by decide) (by decide),
      cCoding, hasTok_stepRemove_ne wCoding wVerbose (by decide) (by decide) (by decide),
      cMinimal, hasTok_stepRemove_ne wMinimal wVerbose (by decide) (by decide) (by decide),
      cElevated, hasTok_stepRemove_ne wElevated wVerbose (by decide) (by decide) (by decide),
      cReasoning, hasTok_stepRemove_ne wReasoning wVerbose (by decide) (by decide) (by decide),
      cVerbose, hasTok_stepRemove_self wVerbose (by decide)]
  · rw [cSilent, hasTok_stepRemove_ne wSilent wReasoning (by decide) (by decide) (by decide),
      cQuiet, hasTok_stepRemove_ne wQuiet wReasoning (by decide) (by decide) (by decide),
      cFull, hasTok_stepRemove_ne wFull wReasoning (by decide) (by decide) (by decide),
      cMessaging, hasTok_stepRemove_ne wMessaging wReasoning (by decide) (by decide) (by decide),
      cCoding, hasTok_stepRemove_ne wCoding wReasoning (by decide) (by decide) (by decide),
      cMinimal, hasTok_stepRemove_ne wMinimal wReasoning (by decide) (by decide) (by decide),
      cElevated, hasTok_stepRemove_ne wElevated wReasoning (by decide) (by decide) (by decide),
      cReasoning, hasTok_stepRemove_self wReasoning (by decide)]
  · rw [cSilent, hasTok_stepRemove_ne wSilent wElevated (by decide) (by decide) (by decide),
      cQuiet, hasTok_stepRemove_ne wQuiet wElevated (by decide) (by decide) (by decide),
      cFull, hasTok_stepRemove_ne wFull wElevated (by decide) (by decide) (by decide),
      cMessaging, hasTok_stepRemove_ne wMessaging wElevated (by decide) (by decide) (by decide),
      cCoding, hasTok_stepRemove_ne wCoding wElevated (by decide) (by decide) (by decide),
      cMinimal, hasTok_stepRemove_ne wMinimal wElevated (by decide) (by decide) (by decide),
      cElevated, hasTok_stepRemove_self wElevated (by decide)]
  · rw [cSilent, hasTok_stepRemove_ne wSilent wMinimal (by decide) (by decide) (by decide),
      cQuiet, hasTok_stepRemove_ne wQuiet wMinimal (by decide) (by decide) (by decide),
      cFull, hasTok_stepRemove_ne wFull wMinimal (by decide) (by decide) (by decide),
      cMessaging, hasTok_stepRemove_ne wMessaging wMinimal (by decide) (by decide) (by decide),
      cCoding, hasTok_stepRemove_ne wCoding wMinimal (by decide) (by decide) (by decide),
      cMinimal, hasTok_stepRemove_self wMinimal (by decide)]
  · rw [cSilent, hasTok_stepRemove_ne wSilent wCoding (by decide) (by decide) (by decide),
      cQuiet, hasTok_stepRemove_ne wQuiet wCoding (by decide) (by decide) (by decide),
      cFull, hasTok_stepRemove_ne wFull wCoding (by decide) (by decide) (by decide),
      cMessaging, hasTok_stepRemove_ne wMessaging wCoding (by decide) (by decide) (by decide),
      cCoding, hasTok_stepRemove_self wCoding (by decide)]
  · rw [cSilent, hasTok_stepRemove_ne wSilent wMessaging (by decide) (by decide) (by decide),
      cQuiet, hasTok_stepRemove_ne wQuiet wMessaging (by decide) (by decide) (by decide),
      cFull, hasTok_stepRemove_ne wFull wMessaging (by decide) (by decide) (by decide),
      cMessaging, hasTok_stepRemove_self wMessaging (by decide)]
  · rw [cSilent, hasTok_stepRemove_ne wSilent wFull (by decide) (by decide) (by decide),
      cQuiet, hasTok_stepRemove_ne wQuiet wFull (by decide) (by decide) (by decide),
      cFull, hasTok_stepRemove_self wFull (by decide)]
  · rw [cSilent, hasTok_stepRemove_ne wSilent wQuiet (by decide) (by decide) (by decide),
      cQuiet, hasTok_stepRemove_self wQuiet (by decide)]
  · rw [cSilent, hasTok_stepRemove_self wSilent (by decide)]

theorem parse_directives_tool_profile (t : Str) (ht : t ≠ []) :
    (parse_directives t).tool_profile =
      if hasTok wFull (cMessaging t) then ToolProfile.full
      else if hasTok wMessaging (cCoding t) then ToolProfile.messaging
      else if hasTok wCoding (cMinimal t) then ToolProfile.coding
      else if hasTok wMinimal (cElevated t) then ToolProfile.minimal
      else ToolProfile.full := by
  rw [parse_directives, if_neg ht]

theorem parse_directives_prompt_mode (t : Str) (ht : t ≠ []) :
    (parse_directives t).prompt_mode =
      if hasTok wSilent (cQuiet t) then PromptMode.none
      else if hasTok wQuiet (cFull t) then PromptMode.minimal
      else PromptMode.full := by
  rw [parse_directives, if_neg ht]

theorem parse_directives_clean_text (t : Str) (ht : t ≠ []) :
    (parse_directives t).clean_text = cleanWs (cSilent t) := by
  rw [parse_directives, if_neg ht]

theorem parse_directives_elevated (t : Str) (ht : t ≠ []) :
    (parse_directives t).elevated = hasTok wElevated (cReasoning t) := by
  rw [parse_directives, if_neg ht]

/-- No directive, profile or mode token survives into the cleaned text. -/
theorem hasTok_clean_known (t : Str) (ht : t ≠ []) :
    ∀ w ∈ knownWords, hasTok w (parse_directives t).clean_text = false := by
  intro w hw
  rw [parse_directives_clean_text t ht]
  have hk := hasTok_cSilent_known t w hw
  simp only [knownWords, List.mem_cons, List.not_mem_nil, or_false] at hw
  rcases hw with rfl | rfl | rfl | rfl | rfl | rfl | rfl | rfl | rfl | rfl <;>
    rw [hasTok_cleanWs _ (by decide) (by decide)] <;> exact hk

/-- C5 (amended): when several tool-profile or prompt-mode tokens occur,
`parse_directives` keeps the value of the token latest in its fixed
pattern order (/minimal, /coding, /messaging, /full for profiles, /quiet,
/silent for modes), not the token occurring last in the text; every
matched known token is removed from the cleaned text, and an unknown
/word token is left in the cleaned text. -/
theorem parse_directives_pattern_priority (t u : Str) (hu : allLower u)
    (hune : u ≠ []) (hunk : u ∉ knownWords) :
    (parse_directives t).tool_profile =
      (if hasTok wFull t then ToolProfile.full
       else if hasTok wMessaging t then ToolProfile.messaging
       else if hasTok wCoding t then ToolProfile.coding
       else if hasTok wMinimal t then ToolProfile.minimal
       else ToolProfile.full) ∧
    (parse_directives t).prompt_mode =
      (if hasTok wSilent t then PromptMode.none
       else if hasTok wQuiet t then PromptMode.minimal
       else PromptMode.full) ∧
    (∀ w ∈ knownWords, hasTok w (parse_directives t).clean_text = false) ∧
    hasTok u (parse_directives t).clean_text = hasTok u t := by
  simp only [knownWords, List.mem_cons, List.not_mem_nil, or_false, not_or] at hunk
  obtain ⟨h1, h2, h3, h4, h5, h6, h7, h8, h9, h10⟩ := hunk
  by_cases ht : t = []
  · subst ht
    refine ⟨by simp [parse_directives, hasTok], by simp [parse_directives, hasTok], ?_, ?_⟩
    · intro w _
      simp [parse_directives, hasTok]
    · simp [parse_directives, hasTok]
  · refine ⟨?_, ?_, hasTok_clean_known t ht, ?_⟩
    · rw [parse_directives_tool_profile t ht,
        hasTok_cMessaging_ne (q := wFull) (by decide) (by decide) (by decide) (by decide)
          (by decide) (by decide) (by decide) (by decide),
        hasTok_cCoding_ne (q := wMessaging) (by decide) (by decide) (by decide) (by decide)
          (by decide) (by decide) (by decide),
        hasTok_cMinimal_ne (q := wCoding) (by decide) (by decide) (by decide) (by decide)
          (by decide) (by decide),
        hasTok_cElevated_ne (q := wMinimal) (by decide) (by decide) (by decide) (by decide)
          (by decide)]
    · rw [parse_directives_prompt_mode t ht,
        hasTok_cQuiet_ne (q := wSilent) (by decide) (by decide) (by decide) (by decide)
          (by decide) (by decide) (by decide) (by decide) (by decide) (by decide),
        hasTok_cFull_ne (q := wQuiet) (by decide) (by decide) (by decide) (by decide)
          (by decide) (by decide) (by decide) (by decide) (by decide)]
    · rw [parse_directives_clean_text t ht, hasTok_cleanWs u hu hune,
        hasTok_cSilent_ne hu h1 h2 h3 h4 h5 h6 h7 h8 h9 h10]

/-- Witness instance for the amended C5 statement at a concrete input. -/
theorem parse_directives_pattern_priority_witness :
    (parse_directives "/full /minimal /deploy now".toList).tool_profile =
        ToolProfile.full ∧
      hasTok "deploy".toList
          (parse_directives "/full /minimal /deploy now".toList).clean_text = true := by
  have h := parse_directives_pattern_priority "/full /minimal /deploy now".toList
    "deploy".toList (by decide) (by decide) (by decide)
  refine ⟨?_, ?_⟩
  · rw [h.1]
    decide
  · rw [h.2.2.2]
    decide

/-- The profile token matched at position `i` of the text, written from
the words of the claim for comparison with the source behaviour. -/
def profileTokAt (t : Str) (i : Nat) : Option ToolProfile :=
  if matchesTok wMinimal (t.drop i) then some ToolProfile.minimal
  else if matchesTok wCoding (t.drop i) then some ToolProfile.coding
  else if matchesTok wMessaging (t.drop i) then some ToolProfile.messaging
  else if matchesTok wFull (t.drop i) then some ToolProfile.full
  else none

/-- Written from the words of the claim (not from the source): the
profile of the tool-profile token occurring last in the text. -/
def lastProfileTokenInText (t : Str) : Option ToolProfile :=
  (List.range t.length).foldl
    (fun acc i =>
      match profileTokAt t i with
      | some p => some p
      | none => acc)
    none

/-- C5 (counterexample): in `"/full /minimal a"` the last tool-profile
token occurring in the text is `/minimal`, but `parse_directives` returns
the FULL profile, because its pattern loop processes `/minimal` before
`/full` and each present pattern overwrites the previous assignment. -/
theorem parse_directives_last_token_counterexample :
    lastProfileTokenInText "/full /minimal a".toList = some ToolProfile.minimal ∧
      (parse_directives "/full /minimal a".toList).tool_profile = ToolProfile.full ∧
      ToolProfile.full ≠ ToolProfile.minimal := by
  refine ⟨by decide, by decide, by decide⟩

/-- C4 (amended): reparsing the cleaned text gives back the same cleaned
text with an empty directive list, while the prompt mode, the tool
profile and the elevated flag revert to their defaults (full, full,
false); they agree with the first parse only when its values were already
the defaults. -/
theorem parse_directives_clean_reparse (t : Str) :
    parse_directives (parse_directives t).clean_text =
      { directives := []
        clean_text := (parse_directives t).clean_text
        prompt_mode := PromptMode.full
        tool_profile := ToolProfile.full
        elevated := false } := by
  by_cases ht : t = []
  · subst ht
    rfl
  · have hz := hasTok_clean_known t ht
    by_cases hc : (parse_directives t).clean_text = []
    · rw [hc]
      rfl
    · have hclean : cleanWs (parse_directives t).clean_text =
          (parse_directives t).clean_text := by
        rw [parse_directives_clean_text t ht, cleanWs_idem]
      have e1 : cThink (parse_directives t).clean_text =
          (parse_directives t).clean_text :=
        stepRemove_id _ _ (hz wThink (by simp [knownWords]))
      have e2 : cVerbose (parse_directives t).clean_text =
          (parse_directives t).clean_text := by
        rw [cVerbose, e1]
        exact stepRemove_id _ _ (hz wVerbose (by simp [knownWords]))
      have e3 : cReasoning (parse_directives t).clean_text =
          (parse_directives t).clean_text := by
        rw [cReasoning, e2]
        exact stepRemove_id _ _ (hz wReasoning (by simp [knownWords]))
      have e4 : cElevated (parse_directives t).clean_text =
          (parse_directives t).clean_text := by
        rw [cElevated, e3]
        exact stepRemove_id _ _ (hz wElevated (by simp [knownWords]))
      have e5 : cMinimal (parse_directives t).clean_text =
          (parse_directives t).clean_text := by
        rw [cMinimal, e4]
        exact stepRemove_id _ _ (hz wMinimal (by simp [knownWords]))
      have e6 : cCoding (parse_directives t).clean_text =
          (parse_directives t).clean_text := by
        rw [cCoding, e5]
        exact stepRemove_id _ _ (hz wCoding (by simp [knownWords]))
      have e7 : cMessaging (parse_directives t).clean_text =
          (parse_directives t).clean_text := by
        rw [cMessaging, e6]
        exact stepRemove_id _ _ (hz wMessaging (by simp [knownWords]))
      have e8 : cFull (parse_directives t).clean_text =
          (parse_directives t).clean_text := by
        rw [cFull, e7]
        exact stepRemove_id _ _ (hz wFull (by simp [knownWords]))
      have e9 : cQuiet (parse_directives t).clean_text =
          (parse_directives t).clean_text := by
        rw [cQuiet, e8]
        exact stepRemove_id _ _ (hz wQuiet (by simp [knownWords]))
      have e10 : cSilent (parse_directives t).clean_text =
          (parse_directives t).clean_text := by
        rw [cSilent, e9]
        exact stepRemove_id _ _ (hz wSilent (by simp [knownWords]))
      rw [parse_directives, if_neg hc]
      simp only [e1, e2, e3, e4, e5, e6, e7, e8, e9, e10, hclean,
        hz wThink (by simp [knownWords]), hz wVerbose (by simp [knownWords]),
        hz wReasoning (by simp [knownWords]), hz wElevated (by simp [knownWords]),
        hz wMinimal (by simp [knownWords]), hz wCoding (by simp [knownWords]),
        hz wMessaging (by simp [knownWords]), hz wFull (by simp [knownWords]),
        hz wQuiet (by simp [knownWords]), hz wSilent (by simp [knownWords]),
        Bool.false_eq_true, if_false, List.append_nil, List.nil_append]

/-- C4 (counterexample): for the input `"/coding x"` the first parse has
tool profile CODING, but reparsing its cleaned text gives the default
FULL profile, so `parse_directives` applied to the cleaned text does not
reproduce the original parse result. -/
theorem parse_directives_reparse_counterexample :
    (parse_directives "/coding x".toList).tool_profile = ToolProfile.coding ∧
      (parse_directives
          (parse_directives "/coding x".toList).clean_text).tool_profile =
        ToolProfile.full ∧
      ToolProfile.coding ≠ ToolProfile.full := by
  refine ⟨by decide, by decide, by decide⟩

/-- Modelled from the spec: the token counter of §4.A
(`count_tokens` in `openbotx/helpers/tokens.py`, whose source is not
included) — deterministic and roughly proportional to the byte count; we
use the standard four-characters-per-token heuristic.  The compaction
functions below are parametric in the counter, so their theorems hold for
every deterministic counter; this model instantiates concrete runs. -/
def count_tokens (s : String) : Nat := s.length / 4

/-- A history message dict of `compaction.py`: only the `role` and
`content` keys are read (via `.get` with defaults). -/
structure CMsg where
  role : String
  content : String
deriving DecidableEq, Repr

/-- Sum of token counts of the message contents. -/
def sumTok (tok : String → Nat) (l : List CMsg) : Nat :=
  (l.map fun m => tok m.content).sum

/-- Token count of an optional summary as `compaction.py` computes it:
`count_tokens(existing_summary) if existing_summary else 0` — `None` and
the empty string both count zero. -/
def summaryTokens (tok : String → Nat) : Option String → Nat
  | some s => if s.isEmpty then 0 else tok s
  | none => 0

/-- The `CompactionResult` dataclass of `compaction.py`. -/
structure CompactionResult where
  messages : List CMsg
  summary : Option String
  tokens_before : Nat
  tokens_after : Nat
  messages_removed : Nat
  summary_updated : Bool
deriving DecidableEq, Repr

/-- The newest-to-oldest keep loop shared by `_compact_adaptive` and
`_compact_truncate`: walk the reversed history, prepend each message
whose tokens still fit in the available budget, count the others as
removed.  The result is (kept messages, their token sum, removed count). -/
def keepStep (tok : String → Nat) (avail : Int) (st : List CMsg × Nat × Nat)
    (m : CMsg) : List CMsg × Nat × Nat :=
  let t := tok m.content
  if (st.2.1 : Int) + t ≤ avail then (m :: st.1, st.2.1 + t, st.2.2)
  else (st.1, st.2.1, st.2.2 + 1)

def keepLoop (tok : String → Nat) (avail : Int) (msgs : List CMsg) :
    List CMsg × Nat × Nat :=
  msgs.reverse.foldl (keepStep tok avail) ([], 0, 0)

/-- Embedding of `MessageCompactor._compact_adaptive`: reserve the summary
tokens, keep recent messages that fit, and when fewer than
`min_messages_to_keep` remain override with the Python slice
`messages[-min_messages_to_keep:]` (the last `min` messages, or all of
them when fewer exist); the summary is returned unchanged. -/
def compactAdaptive (tok : String → Nat) (minKeep : Nat) (msgs : List CMsg)
    (tokenBudget : Int) (existingSummary : Option String) : CompactionResult :=
  let tokensBefore := sumTok tok msgs
  let sTok := summaryTokens tok existingSummary
  let avail : Int := tokenBudget - sTok
  let r := keepLoop tok avail msgs
  if r.1.length < minKeep then
    let kept := msgs.drop (msgs.length - minKeep)
    { messages := kept
      summary := existingSummary
      tokens_before := tokensBefore
      tokens_after := sumTok tok kept + sTok
      messages_removed := msgs.length - kept.length
      summary_updated := false }
  else
    { messages := r.1
      summary := existingSummary
      tokens_before := tokensBefore
      tokens_after := r.2.1 + sTok
      messages_removed := r.2.2
      summary_updated := false }

/-- Embedding of `MessageCompactor._compact_truncate`: the same loop as
adaptive, never enforcing a minimum; the removed count is recomputed as
`len(messages) - len(kept_messages)`. -/
def compactTruncate (tok : String → Nat) (msgs : List CMsg)
    (tokenBudget : Int) (existingSummary : Option String) : CompactionResult :=
  let tokensBefore := sumTok tok msgs
  let sTok := summaryTokens tok existingSummary
  let avail : Int := tokenBudget - sTok
  let r := keepLoop tok avail msgs
  { messages := r.1
    summary := existingSummary
    tokens_before := tokensBefore
    tokens_after := r.2.1 + sTok
    messages_removed := msgs.length - r.1.length
    summary_updated := false }

/-- The keep loop of `_compact_progressive`, which unlike the other two
breaks at the first message that does not fit. -/
def takeFit (tok : String → Nat) (recentBudget : Int) : Nat → List CMsg → List CMsg
  | _, [] => []
  | cur, m :: rest =>
    let t := tok m.content
    if (cur : Int) + t ≤ recentBudget then m :: takeFit tok recentBudget (cur + t) rest
    else []

/-- Embedding of `MessageCompactor._prepare_for_summarization`: the
deterministic concatenation of the previous summary and the messages to
be incorporated. -/
def prepareForSummarization (msgs : List CMsg) (existingSummary : Option String) :
    String :=
  let parts0 : List String :=
    match existingSummary with
    | some s => if s.isEmpty then [] else ["Previous summary:\n" ++ s ++ "\n"]
    | none => []
  String.intercalate "\n"
    (parts0 ++ ["Messages to incorporate:\n"] ++
      msgs.map fun m => "[" ++ m.role ++ "]: " ++ m.content)

/-- Embedding of `MessageCompactor._compact_progressive`.  The source
computes `recent_budget = int(token_budget * 0.7)` with IEEE-754 doubles;
that value is taken here as the parameter `recentBudget` (for budget 0 it
is exactly 0).  Everything older than the kept suffix is concatenated by
`_prepare_for_summarization` and returned as the new summary — an
unsummarized aggregate whose token count is not bounded by the budget. -/
def compactProgressive (tok : String → Nat) (recentBudget : Int) (msgs : List CMsg)
    (existingSummary : Option String) : CompactionResult :=
  let tokensBefore := sumTok tok msgs
  let kept := (takeFit tok recentBudget 0 msgs.reverse).reverse
  let toSummarize := msgs.take (msgs.length - kept.length)
  let newSummary : Option String :=
    if toSummarize.isEmpty then none
    else some (prepareForSummarization toSummarize existingSummary)
  { messages := kept
    summary := newSummary
    tokens_before := tokensBefore
    tokens_after := sumTok tok kept + summaryTokens tok newSummary
    messages_removed := toSummarize.length
    summary_updated := !toSummarize.isEmpty }

theorem keepLoop_inv (tok : String → Nat) (avail : Int) (msgs : List CMsg) :
    (keepLoop tok avail msgs).2.1 = sumTok tok (keepLoop tok avail msgs).1 ∧
      ((keepLoop tok avail msgs).2.1 : Int) ≤ max 0 avail := by
  rw [keepLoop]
  generalize msgs.reverse = l
  suffices h : ∀ (st : List CMsg × Nat × Nat),
      st.2.1 = sumTok tok st.1 → (st.2.1 : Int) ≤ max 0 avail →
      (l.foldl (keepStep tok avail) st).2.1 =
          sumTok tok (l.foldl (keepStep tok avail) st).1 ∧
        ((l.foldl (keepStep tok avail) st).2.1 : Int) ≤ max 0 avail by
    exact h ([], 0, 0) rfl (by simp)
  induction l with
  | nil => intro st h1 h2; exact ⟨h1, h2⟩
  | cons m rest ih =>
    intro st h1 h2
    simp only [List.foldl_cons]
    by_cases hfit : (st.2.1 : Int) + tok m.content ≤ avail
    · refine ih _ ?_ ?_
      · simp only [keepStep, hfit, if_pos]
        simp [sumTok, h1]
        omega
      · simp only [keepStep, hfit, if_pos]
        push_cast
        exact le_trans hfit (le_max_right 0 avail)
    · refine ih _ ?_ ?_ <;> simp only [keepStep, hfit, if_neg, not_false_iff]
      · simpa using h1
      · simpa using h2

theorem takeFit_sum (tok : String → Nat) (rb : Int) :
    ∀ (l : List CMsg) (cur : Nat),
      (cur : Int) + sumTok tok (takeFit tok rb cur l) ≤ max (cur : Int) rb := by
  intro l
  induction l with
  | nil =>
    intro cur
    simp [takeFit, sumTok]
  | cons m rest ih =>
    intro cur
    rw [takeFit]
    by_cases hfit : (cur : Int) + tok m.content ≤ rb
    · simp only [hfit, if_pos]
      have h := ih (cur + tok m.content)
      have hmax : max ((cur + tok m.content : Nat) : Int) rb = rb := by
        refine max_eq_right ?_
        push_cast
        omega
      rw [hmax] at h
      have hsum : sumTok tok (m :: takeFit tok rb (cur + tok m.content) rest) =
          tok m.content + sumTok tok (takeFit tok rb (cur + tok m.content) rest) := by
        simp [sumTok]
      rw [hsum]
      refine le_trans ?_ (le_max_right (cur : Int) rb)
      push_cast at h ⊢
      omega
    · simp only [hfit, if_neg, not_false_iff]
      simp [sumTok]

theorem sumTok_reverse (tok : String → Nat) (l : List CMsg) :
    sumTok tok l.reverse = sumTok tok l := by
  simp [sumTok, List.sum_reverse]

/-- C1 (amended): under the truncate strategy the kept messages fit in
what remains of the budget after reserving the (unchanged) summary, so
kept plus summary is within the budget whenever the summary alone fits;
the adaptive strategy satisfies the same bound except when the
minimum-keep floor triggers, in which case the number of kept messages is
the minimum of `min_messages_to_keep` and the history length (not always
`min_messages_to_keep`); under the progressive strategy only the kept
messages are bounded (by the reserved recent budget) — the returned
summary is the unsummarized aggregate of the older messages and is not
bounded by the budget. -/
theorem compact_budget_amended (tok : String → Nat) (minKeep : Nat)
    (msgs : List CMsg) (tokenBudget recentBudget : Int)
    (existingSummary : Option String) :
    ((compactTruncate tok msgs tokenBudget existingSummary).summary =
        existingSummary ∧
      (sumTok tok (compactTruncate tok msgs tokenBudget existingSummary).messages :
          Int) ≤
        max 0 (tokenBudget - summaryTokens tok existingSummary)) ∧
    ((compactAdaptive tok minKeep msgs tokenBudget existingSummary).summary =
        existingSummary ∧
      ((keepLoop tok (tokenBudget - summaryTokens tok existingSummary) msgs).1.length <
          minKeep →
        (compactAdaptive tok minKeep msgs tokenBudget
            existingSummary).messages.length = min minKeep msgs.length) ∧
      (¬ (keepLoop tok (tokenBudget - summaryTokens tok existingSummary)
            msgs).1.length < minKeep →
        (sumTok tok (compactAdaptive tok minKeep msgs tokenBudget
            existingSummary).messages : Int) ≤
          max 0 (tokenBudget - summaryTokens tok existingSummary))) ∧
    (sumTok tok (compactProgressive tok recentBudget msgs existingSummary).messages :
        Int) ≤ max 0 recentBudget := by
  have hloop := keepLoop_inv tok (tokenBudget - summaryTokens tok existingSummary) msgs
  refine ⟨⟨rfl, ?_⟩, ⟨?_, ?_, ?_⟩, ?_⟩
  · simp only [compactTruncate]
    rw [← hloop.1]
    exact hloop.2
  · by_cases hfloor : (keepLoop tok (tokenBudget - summaryTokens tok existingSummary)
        msgs).1.length < minKeep
    · simp only [compactAdaptive]
      rw [if_pos hfloor]
    · simp only [compactAdaptive]
      rw [if_neg hfloor]
  · intro hfloor
    simp only [compactAdaptive]
    rw [if_pos hfloor]
    simp only [List.length_drop]
    omega
  · intro hfloor
    simp only [compactAdaptive]
    rw [if_neg hfloor]
    rw [← hloop.1]
    exact hloop.2
  · simp only [compactProgressive]
    rw [sumTok_reverse]
    simpa using takeFit_sum tok recentBudget msgs.reverse 0

/-- A 404-character message content, 101 tokens under `count_tokens`. -/
def bigContent : String := String.mk (List.replicate 404 'x')

/-- A 400-character summary, 100 tokens under `count_tokens`. -/
def bigSummary : String := String.mk (List.replicate 400 'y')

set_option maxRecDepth 8000 in
/-- C1 (counterexample): three concrete violations of the claimed budget
bound.  Adaptive with one 101-token message, budget 100 and
`min_messages_to_keep` 4: the floor triggers yet only 1 message is kept
(not 4) and its 101 tokens exceed the budget.  Truncate with an empty
history, budget 10 and a 100-token existing summary: the returned summary
alone exceeds the budget and truncate has no exception in the claim.
Progressive with budget 0 (so `recent_budget = int(0 * 0.7) = 0`) and one
1-token message: nothing is kept and the returned summary is the 9-token
unsummarized aggregate, exceeding the budget. -/
theorem compact_budget_counterexample :
    ((compactAdaptive count_tokens 4 [⟨"user", bigContent⟩] 100 none).messages.length =
        1 ∧
      sumTok count_tokens
        (compactAdaptive count_tokens 4 [⟨"user", bigContent⟩] 100 none).messages =
        101 ∧
      (compactAdaptive count_tokens 4 [⟨"user", bigContent⟩] 100 none).summary =
        none) ∧
    ((compactTruncate count_tokens [] 10 (some bigSummary)).messages = [] ∧
      (compactTruncate count_tokens [] 10 (some bigSummary)).summary =
        some bigSummary ∧
      summaryTokens count_tokens (some bigSummary) = 100) ∧
    ((compactProgressive count_tokens 0 [⟨"user", "abcd"⟩] none).messages = [] ∧
      summaryTokens count_tokens
        ((compactProgressive count_tokens 0 [⟨"user", "abcd"⟩] none).summary) = 9) := by
  refine ⟨⟨?_, ?_, ?_⟩, ⟨?_, ?_, ?_⟩, ?_, ?_⟩ <;> decide

set_option maxRecDepth 8000 in
/-- Witness instance for the amended C1 statement: at the adaptive
counterexample input the floor branch applies and the kept count is
`min 4 1 = 1`; at a small truncate input the budget bound holds. -/
theorem compact_budget_amended_witness :
    (compactAdaptive count_tokens 4 [⟨"user", bigContent⟩] 100 none).messages.length =
        min 4 1 ∧
      (sumTok count_tokens
          (compactTruncate count_tokens [⟨"user", "abcdefgh"⟩] 10 none).messages :
        Int) ≤ max 0 (10 - summaryTokens count_tokens none) := by
  constructor
  · exact (compact_budget_amended count_tokens 4 [⟨"user", bigContent⟩] 100 0
      none).2.1.2.1 (by decide)
  · exact (compact_budget_amended count_tokens 4 [⟨"user", "abcdefgh"⟩] 10 0
      none).1.2

/-- Model of Python `str.isalnum()`: exact on ASCII; of the non-ASCII
range (where Python consults the Unicode database) this model includes
the Latin-1 supplement letters (general categories Lu and Ll, i.e. code
points 0xC0 to 0xFF except the multiplication and division signs), which
covers the characters used in this development. -/
def pyIsAlnum (c : Char) : Bool :=
  isAsciiUpper c || isAsciiLower c || isDigitChar c ||
    (192 ≤ c.toNat && c.toNat ≤ 255 && c.toNat ≠ 215 && c.toNat ≠ 247)

/-- Embedding of the channel-id sanitizer of
`ContextStore._get_channel_path` and `_get_summary_path`: each character
is kept when `c.isalnum() or c in "-_"` and replaced by an underscore
otherwise. -/
def sanitizeChannelId (channelId : Str) : Str :=
  channelId.map fun c => if pyIsAlnum c || c == '-' || c == '_' then c else '_'

/-- Written from the words of the claim (not from the source): replace
every character outside [A-Za-z0-9_-] with an underscore. -/
def specSanitize (channelId : Str) : Str :=
  channelId.map fun c =>
    if isAsciiUpper c || isAsciiLower c || isDigitChar c || c == '-' || c == '_'
    then c else '_'

theorem pyIsAlnum_ascii {c : Char} (hc : c.toNat < 128) :
    pyIsAlnum c = (isAsciiUpper c || isAsciiLower c || isDigitChar c) := by
  have h192 : ¬ (192 ≤ c.toNat) := by omega
  simp [pyIsAlnum, h192]

/-- C9 (amended): on channel ids made of ASCII characters the sanitizer
replaces exactly the characters outside [A-Za-z0-9_-] with underscores;
on non-ASCII ids it keeps any Unicode-alphanumeric character (Python
`str.isalnum`), which the claim would replace. -/
theorem sanitize_ascii_spec (l : Str) (h : ∀ c ∈ l, c.toNat < 128) :
    sanitizeChannelId l = specSanitize l := by
  unfold sanitizeChannelId specSanitize
  refine List.map_congr_left ?_
  intro c hc
  rw [pyIsAlnum_ascii (h c hc)]

/-- Witness instance for the amended C9 statement at a concrete ASCII
channel id. -/
theorem sanitize_ascii_spec_witness :
    sanitizeChannelId "cli:session 1!".toList = specSanitize "cli:session 1!".toList ∧
      sanitizeChannelId "cli:session 1!".toList = "cli_session_1_".toList := by
  refine ⟨sanitize_ascii_spec "cli:session 1!".toList (by decide), by decide⟩

/-- C9 (counterexample): the channel id `"café"` is kept unchanged by the
sanitizer, because Python `str.isalnum()` accepts the Unicode letter é,
while the claimed rule (replace everything outside [A-Za-z0-9_-]) would
produce `"caf_"`. -/
theorem sanitize_unicode_counterexample :
    sanitizeChannelId "café".toList = "café".toList ∧
      specSanitize "café".toList = "caf_".toList ∧
      "café".toList ≠ "caf_".toList := by
  refine ⟨by decide, by decide, by decide⟩

/-- The tool groups of `openbotx/models/enums.py`. -/
inductive ToolGroup
  | fs
  | web
  | memory
  | sessions
  | ui
  | automation
  | messaging
  | database
  | storage
  | scheduler
  | system
deriving DecidableEq, Repr

/-- The default profile-to-groups table `PROFILE_GROUPS` of
`tool_policy.py` (sets modelled as lists; only membership matters). -/
def PROFILE_GROUPS : ToolProfile → List ToolGroup
  | ToolProfile.minimal => [ToolGroup.system]
  | ToolProfile.coding => [ToolGroup.system, ToolGroup.fs, ToolGroup.database]
  | ToolProfile.messaging => [ToolGroup.system, ToolGroup.messaging, ToolGroup.web]
  | ToolProfile.full =>
    [ToolGroup.system, ToolGroup.fs, ToolGroup.web, ToolGroup.memory,
      ToolGroup.sessions, ToolGroup.ui, ToolGroup.automation, ToolGroup.messaging,
      ToolGroup.database, ToolGroup.storage, ToolGroup.scheduler]

/-- The `ToolPolicyConfig` dataclass of `tool_policy.py`; the dict of
group overrides is modelled as an association list in insertion order. -/
structure ToolPolicyConfig where
  default_profile : ToolProfile := ToolProfile.full
  allowlist : List String := []
  denylist : List String := []
  group_overrides : List (ToolGroup × Bool) := []
  approval_required_tools : List String := []
  dangerous_tools : List String := []
deriving Repr

/-- The `ToolInfo` dataclass of `tool_policy.py`. -/
structure ToolInfo where
  name : String
  group : Option ToolGroup := none
  groups : List ToolGroup := []
  approval_required : Bool := false
  dangerous : Bool := false
  admin_only : Bool := false
deriving DecidableEq, Repr

/-- The `ToolPolicyResult` dataclass of `tool_policy.py`; the
human-readable reason strings are abbreviated to their distinguishing
part. -/
structure ToolPolicyResult where
  allowed : Bool
  reason : String
  requires_approval : Bool := false
  requires_elevation : Bool := false
deriving DecidableEq, Repr

/-- Embedding of `ToolPolicy.get_allowed_groups`: the profile defaults
with the configured overrides applied set-wise (add when enabled, remove
when disabled). -/
def get_allowed_groups (cfg : ToolPolicyConfig) (profile : ToolProfile) :
    List ToolGroup :=
  cfg.group_overrides.foldl
    (fun gs go =>
      if go.2 then (if go.1 ∈ gs then gs else gs ++ [go.1])
      else gs.filter (· ≠ go.1))
    (PROFILE_GROUPS profile)

/-- Embedding of `ToolPolicy.evaluate` from `tool_policy.py`: denylist,
then allowlist, then the admin-only and dangerous checks against the
elevated flag, then the no-group rule, the primary-group rule and the
secondary-groups rule, and finally the default denial.  Membership of the
Python truthiness test `tool.group and tool.group in allowed_groups` is
the existence of the primary group in the allowed set. -/
def evaluate (cfg : ToolPolicyConfig) (tool : ToolInfo) (profile : ToolProfile)
    (elevated : Bool) : ToolPolicyResult :=
  if tool.name ∈ cfg.denylist then
    { allowed := false, reason := "denylist" }
  else if tool.name ∈ cfg.allowlist then
    { allowed := true, reason := "allowlist", requires_approval := tool.approval_required }
  else if tool.admin_only = true ∧ elevated = false then
    { allowed := false, reason := "requires admin privileges", requires_elevation := true }
  else if (tool.dangerous = true ∨ tool.name ∈ cfg.dangerous_tools) ∧ elevated = false then
    { allowed := false, reason := "marked as dangerous", requires_elevation := true }
  else if tool.group = none ∧ tool.groups = [] then
    (if profile = ToolProfile.full then
      { allowed := true, reason := "no group, allowed in FULL profile"
        requires_approval := tool.approval_required }
    else { allowed := false, reason := "no group and profile is not FULL" })
  else if ∃ g ∈ get_allowed_groups cfg profile, tool.group = some g then
    { allowed := true, reason := "tool group allowed in profile"
      requires_approval := tool.approval_required }
  else if ∃ g ∈ tool.groups, g ∈ get_allowed_groups cfg profile then
    { allowed := true, reason := "secondary tool group allowed in profile"
      requires_approval := tool.approval_required }
  else
    { allowed := false, reason := "not allowed in profile" }

/-- C7: `ToolPolicy.evaluate` applies its rules in the fixed order and
stops at the first applicable one: denylist beats allowlist; an
allowlisted tool is allowed with approval equal to its flag even when
admin-only or dangerous without elevation; then admin-only without
elevation denies with the elevation flag; then dangerous (declared or
configured) without elevation denies with the elevation flag; then a
tool whose primary or any secondary group is allowed for the profile is
allowed; a tool with no group at all is allowed exactly when the profile
is FULL; every other tool is denied. -/
theorem evaluate_rule_order (cfg : ToolPolicyConfig) (tool : ToolInfo)
    (profile : ToolProfile) (elevated : Bool) :
    (tool.name ∈ cfg.denylist →
      evaluate cfg tool profile elevated =
        { allowed := false, reason := "denylist" }) ∧
    (tool.name ∉ cfg.denylist → tool.name ∈ cfg.allowlist →
      (evaluate cfg tool profile elevated).allowed = true ∧
        (evaluate cfg tool profile elevated).requires_approval =
          tool.approval_required) ∧
    (tool.name ∉ cfg.denylist → tool.name ∉ cfg.allowlist →
      tool.admin_only = true → elevated = false →
      (evaluate cfg tool profile elevated).allowed = false ∧
        (evaluate cfg tool profile elevated).requires_elevation = true) ∧
    (tool.name ∉ cfg.denylist → tool.name ∉ cfg.allowlist →
      ¬ (tool.admin_only = true ∧ elevated = false) →
      (tool.dangerous = true ∨ tool.name ∈ cfg.dangerous_tools) → elevated = false →
      (evaluate cfg tool profile elevated).allowed = false ∧
        (evaluate cfg tool profile elevated).requires_elevation = true) ∧
    (tool.name ∉ cfg.denylist → tool.name ∉ cfg.allowlist →
      ¬ (tool.admin_only = true ∧ elevated = false) →
      ¬ ((tool.dangerous = true ∨ tool.name ∈ cfg.dangerous_tools) ∧ elevated = false) →
      ((∃ g ∈ get_allowed_groups cfg profile, tool.group = some g) ∨
        (∃ g ∈ tool.groups, g ∈ get_allowed_groups cfg profile)) →
      (evaluate cfg tool profile elevated).allowed = true ∧
        (evaluate cfg tool profile elevated).requires_approval =
          tool.approval_required) ∧
    (tool.name ∉ cfg.denylist → tool.name ∉ cfg.allowlist →
      ¬ (tool.admin_only = true ∧ elevated = false) →
      ¬ ((tool.dangerous = true ∨ tool.name ∈ cfg.dangerous_tools) ∧ elevated = false) →
      tool.group = none → tool.groups = [] →
      ((evaluate cfg tool profile elevated).allowed = true ↔
        profile = ToolProfile.full)) ∧
    (tool.name ∉ cfg.denylist → tool.name ∉ cfg.allowlist →
      ¬ (tool.admin_only = true ∧ elevated = false) →
      ¬ ((tool.dangerous = true ∨ tool.name ∈ cfg.dangerous_tools) ∧ elevated = false) →
      ¬ (∃ g ∈ get_allowed_groups cfg profile, tool.group = some g) →
      ¬ (∃ g ∈ tool.groups, g ∈ get_allowed_groups cfg profile) →
      ¬ (tool.group = none ∧ tool.groups = [] ∧ profile = ToolProfile.full) →
      (evaluate cfg tool profile elevated).allowed = false) := by
  refine ⟨?_, ?_, ?_, ?_, ?_, ?_, ?_⟩
  · intro h1
    rw [evaluate, if_pos h1]
  · intro h1 h2
    rw [evaluate, if_neg h1, if_pos h2]
    exact ⟨rfl, rfl⟩
  · intro h1 h2 h3 h4
    rw [evaluate, if_neg h1, if_neg h2, if_pos ⟨h3, h4⟩]
    exact ⟨rfl, rfl⟩
  · intro h1 h2 h3 h4 h5
    rw [evaluate, if_neg h1, if_neg h2, if_neg h3, if_pos ⟨h4, h5⟩]
    exact ⟨rfl, rfl⟩
  · intro h1 h2 h3 h4 h5
    have hng : ¬ (tool.group = none ∧ tool.groups = []) := by
      rintro ⟨hgn, hgs⟩
      rcases h5 with ⟨g, -, hg⟩ | ⟨g, hg, -⟩
      · rw [hgn] at hg
        exact Option.noConfusion hg
      · rw [hgs] at hg
        exact List.not_mem_nil g hg
    rw [evaluate, if_neg h1, if_neg h2, if_neg h3, if_neg h4, if_neg hng]
    rcases h5 with h5 | h5
    · rw [if_pos h5]
      exact ⟨rfl, rfl⟩
    · by_cases h6 : ∃ g ∈ get_allowed_groups cfg profile, tool.group = some g
      · rw [if_pos h6]
        exact ⟨rfl, rfl⟩
      · rw [if_neg h6, if_pos h5]
        exact ⟨rfl, rfl⟩
  · intro h1 h2 h3 h4 h5 h6
    rw [evaluate, if_neg h1, if_neg h2, if_neg h3, if_neg h4, if_pos ⟨h5, h6⟩]
    by_cases h7 : profile = ToolProfile.full
    · rw [if_pos h7]
      simp [h7]
    · rw [if_neg h7]
      simp [h7]
  · intro h1 h2 h3 h4 h5 h6 h7
    by_cases h8 : tool.group = none ∧ tool.groups = []
    · have h9 : profile ≠ ToolProfile.full := by
        intro hp
        exact h7 ⟨h8.1, h8.2, hp⟩
      rw [evaluate, if_neg h1, if_neg h2, if_neg h3, if_neg h4, if_pos h8, if_neg h9]
    · rw [evaluate, if_neg h1, if_neg h2, if_neg h3, if_neg h4, if_neg h8, if_neg h5,
        if_neg h6]

/-- Witness instance for C7: an allowlisted dangerous admin-only tool is
allowed without elevation and keeps its approval flag, and a denylisted
tool is denied even though it is also allowlisted. -/
theorem evaluate_rule_order_witness :
    (evaluate { allowlist := ["t"] }
        { name := "t", dangerous := true, admin_only := true,
          approval_required := true }
        ToolProfile.minimal false).allowed = true ∧
      (evaluate { allowlist := ["t"] }
          { name := "t", dangerous := true, admin_only := true,
            approval_required := true }
          ToolProfile.minimal false).requires_approval = true ∧
      (evaluate { allowlist := ["d"], denylist := ["d"] } { name := "d" }
          ToolProfile.full false).allowed = false := by
  have h1 := (evaluate_rule_order { allowlist := ["t"] }
    { name := "t", dangerous := true, admin_only := true, approval_required := true }
    ToolProfile.minimal false).2.1 (by decide) (by decide)
  have h2 := (evaluate_rule_order { allowlist := ["d"], denylist := ["d"] }
    { name := "d" } ToolProfile.full false).1 (by decide)
  refine ⟨h1.1, h1.2, ?_⟩
  rw [h2]

/-- The `GatewayStatus` enum of `gateway_manager.py`. -/
inductive GatewayStatus
  | registered
  | starting
  | running
  | stopping
  | stopped
  | error
  | restarting
deriving DecidableEq, Repr

/-- Provider-side calls issued by the manager, recorded as effects. -/
inductive GwEffect
  | providerInit
  | providerStart
  | providerStop
  | taskCancel
  | taskCreate
deriving DecidableEq, Repr

/-- The mutable part of a `GatewayInfo` record relevant to lifecycle
claims: manager status, restart counter, whether a run task is held, and
whether the provider reports status INITIALIZED (which makes
`start_gateway` call `initialize`).  The base `GatewayProvider` class
always defines `_run`, so the `hasattr` check in `start_gateway` is
true and a run task is always created. -/
structure GwInfo where
  status : GatewayStatus
  restartCount : Nat
  hasTask : Bool
  provIsInitialized : Bool
deriving DecidableEq, Repr

/-- Embedding of `GatewayManager.stop_gateway` for a registered gateway,
on the paths where provider calls succeed: gateways whose status is not
RUNNING or ERROR are left untouched and the call returns True without
stopping anything; otherwise the provider is stopped, the task cancelled
and the status set to STOPPED. -/
def stopGateway (i : GwInfo) : GwInfo × Bool × List GwEffect :=
  if i.status ≠ GatewayStatus.running ∧ i.status ≠ GatewayStatus.error then
    (i, true, [])
  else
    ({ i with status := GatewayStatus.stopped, hasTask := false }, true,
      [GwEffect.providerStop] ++ (if i.hasTask then [GwEffect.taskCancel] else []))

/-- Embedding of `GatewayManager.start_gateway` for a registered gateway,
on the paths where provider calls succeed: an already RUNNING gateway is
left untouched; otherwise the provider is initialized when needed,
started, a run task is created and the status becomes RUNNING. -/
def startGateway (i : GwInfo) : GwInfo × Bool × List GwEffect :=
  if i.status = GatewayStatus.running then (i, true, [])
  else
    ({ i with status := GatewayStatus.running, hasTask := true }, true,
      (if i.provIsInitialized then [GwEffect.providerInit] else []) ++
        [GwEffect.providerStart, GwEffect.taskCreate])

/-- Embedding of `GatewayManager.restart_gateway` for a registered
gateway: set the status to RESTARTING, call `stop_gateway`, then return
the result of `start_gateway`; the effect lists are concatenated. -/
def restartGateway (i : GwInfo) : GwInfo × Bool × List GwEffect :=
  let i1 := { i with status := GatewayStatus.restarting }
  let s := stopGateway i1
  let r := startGateway s.1
  (r.1, r.2.1, s.2.2 ++ r.2.2)

/-- C8 (amended): `restart_gateway` leaves `restart_count` unchanged (the
counter is only incremented by the auto-restart path of
`_run_gateway_wrapper`), never invokes the provider stop — because the
status is set to RESTARTING before `stop_gateway`, whose guard only stops
RUNNING or ERROR gateways — and then starts the gateway, leaving it
RUNNING with a fresh run task. -/
theorem restartGateway_no_stop_no_bump (i : GwInfo) :
    (restartGateway i).1.restartCount = i.restartCount ∧
      GwEffect.providerStop ∉ (restartGateway i).2.2 ∧
      (restartGateway i).1.status = GatewayStatus.running ∧
      (restartGateway i).2.1 = true := by
  have hguard : stopGateway { i with status := GatewayStatus.restarting } =
      ({ i with status := GatewayStatus.restarting }, true, []) := by
    rw [stopGateway, if_pos]
    exact ⟨by simp, by simp⟩
  have hstart : startGateway { i with status := GatewayStatus.restarting } =
      ({ i with status := GatewayStatus.running, hasTask := true }, true,
        (if i.provIsInitialized then [GwEffect.providerInit] else []) ++
          [GwEffect.providerStart, GwEffect.taskCreate]) := by
    rw [startGateway, if_neg (by simp)]
  have hre : restartGateway i =
      ({ i with status := GatewayStatus.running, hasTask := true }, true,
        [] ++ ((if i.provIsInitialized then [GwEffect.providerInit] else []) ++
          [GwEffect.providerStart, GwEffect.taskCreate])) := by
    simp only [restartGateway]
    rw [hguard]
    simp only
    rw [hstart]
  refine ⟨by rw [hre], ?_, by rw [hre], by rw [hre]⟩
  rw [hre]
  by_cases h : i.provIsInitialized = true <;> simp [h]

/-- C8 (counterexample): a running gateway with restart count 0 is
restarted; the claim demands that the provider be stopped and the count
become 1, but the count stays 0 and no provider stop effect is issued. -/
theorem restartGateway_counterexample :
    (restartGateway
        { status := GatewayStatus.running, restartCount := 0, hasTask := true,
          provIsInitialized := false }).1.restartCount = 0 ∧
      (restartGateway
          { status := GatewayStatus.running, restartCount := 0, hasTask := true,
            provIsInitialized := false }).2.2 =
        [GwEffect.providerStart, GwEffect.taskCreate] ∧
      (0 : Nat) ≠ 1 ∧
      GwEffect.providerStop ∉ [GwEffect.providerStart, GwEffect.taskCreate] := by
  refine ⟨by decide, by decide, by decide, by decide⟩

/-- Model of Python `text.split("\n")`: fragments between newline
characters, keeping empty fragments and the trailing fragment. -/
def splitNl : Str → List Str
  | [] => [[]]
  | c :: cs =>
    if c = '\n' then [] :: splitNl cs
    else (c :: (splitNl cs).headI) :: (splitNl cs).tail

/-- Model of Python `"\n".join(lines)`. -/
def joinNl (ls : List Str) : Str := List.intercalate ['\n'] ls

theorem splitNl_ne_nil : ∀ (s : Str), splitNl s ≠ [] := by
  intro s
  cases s with
  | nil => simp [splitNl]
  | cons c cs =>
    rw [splitNl]
    by_cases h : c = '\n' <;> simp [h]

theorem intercalate_single (sep x : Str) : List.intercalate sep [x] = x := by
  simp [List.intercalate]

theorem intercalate_cons2 (sep x y : Str) (zs : List Str) :
    List.intercalate sep (x :: y :: zs) = x ++ sep ++ List.intercalate sep (y :: zs) := by
  simp [List.intercalate, List.intersperse]

theorem joinNl_splitNl (s : Str) : joinNl (splitNl s) = s := by
  induction s with
  | nil => rfl
  | cons c cs ih =>
    rw [splitNl]
    by_cases h : c = '\n'
    · rw [if_pos h, h]
      obtain ⟨x, l, hx⟩ := List.exists_cons_of_ne_nil (splitNl_ne_nil cs)
      rw [hx] at ih ⊢
      rw [joinNl, intercalate_cons2, ← joinNl, ih]
      simp
    · rw [if_neg h]
      obtain ⟨x, l, hx⟩ := List.exists_cons_of_ne_nil (splitNl_ne_nil cs)
      rw [hx]
      simp only [List.headI, List.tail]
      cases l with
      | nil =>
        rw [hx] at ih
        rw [joinNl, intercalate_single] at ih
        rw [joinNl, intercalate_single, ih]
      | cons y ys =>
        rw [hx] at ih
        rw [joinNl, intercalate_cons2] at ih
        rw [joinNl, intercalate_cons2]
        rw [← joinNl] at ih ⊢
        rw [← ih]
        simp

theorem headI_append_of_ne_nil {l l' : List Str} (h : l ≠ []) :
    (l ++ l').headI = l.headI := by
  cases l with
  | nil => exact absurd rfl h
  | cons x xs => rfl

theorem tail_append_of_ne_nil {l l' : List Str} (h : l ≠ []) :
    (l ++ l').tail = l.tail ++ l' := by
  cases l with
  | nil => exact absurd rfl h
  | cons x xs => rfl

theorem splitNl_append (X Y : Str) :
    splitNl (X ++ '\n' :: Y) = splitNl X ++ splitNl Y := by
  induction X with
  | nil =>
    simp [splitNl]
  | cons c X' ih =>
    by_cases h : c = '\n'
    · simp only [List.cons_append]
      rw [splitNl, if_pos h, ih, splitNl, if_pos h]
      simp
    · simp only [List.cons_append]
      rw [splitNl, if_neg h, ih, splitNl, if_neg h,
        headI_append_of_ne_nil (splitNl_ne_nil X'),
        tail_append_of_ne_nil (splitNl_ne_nil X')]
      simp

theorem splitNl_no_newline {A : Str} (h : '\n' ∉ A) : splitNl A = [A] := by
  induction A with
  | nil => rfl
  | cons c cs ih =>
    rw [splitNl, if_neg (by intro hc; exact h (by simp [hc]))]
    rw [ih (fun hc => h (by simp [hc]))]
    rfl

theorem splitNl_joinNl_flatten :
    ∀ (e : Str) (es : List Str),
      splitNl (joinNl (e :: es)) = splitNl e ++ (es.map splitNl).flatten := by
  intro e es
  induction es generalizing e with
  | nil => simp [joinNl, intercalate_single]
  | cons f fs ih =>
    rw [joinNl, intercalate_cons2, List.append_assoc, List.cons_append,
      List.nil_append, splitNl_append, ← joinNl, ih f]
    simp

/-- Exact prefix test on character lists (Python `str.startswith`). -/
def strStarts : Str → Str → Bool
  | [], _ => true
  | _ :: _, [] => false
  | p :: ps, c :: cs => p == c && strStarts ps cs

/-- Substring containment (Python `sep in s`). -/
def containsSub (sep : Str) : Str → Bool
  | [] => sep.isEmpty
  | c :: cs => strStarts sep (c :: cs) || containsSub sep cs

/-- Structural worker for `splitSep`; a positive counter consumes the
remaining characters of an already matched separator. -/
def splitSepSkip (sep : Str) : Nat → Str → List Str
  | _, [] => [[]]
  | n + 1, _ :: cs => splitSepSkip sep n cs
  | 0, c :: cs =>
    if strStarts sep (c :: cs) then [] :: splitSepSkip sep (sep.length - 1) cs
    else
      match splitSepSkip sep 0 cs with
      | [] => [[c]]
      | h :: t => (c :: h) :: t

/-- Model of Python `s.split(sep)` for a non-empty separator: fragments
between non-overlapping leftmost separator occurrences. -/
def splitSep (sep s : Str) : List Str := splitSepSkip sep 0 s

/-- The separator `" - "` of the history header lines. -/
def sepDash : Str := " - ".toList

theorem splitSepSkip_eq_drop (sep : Str) (n : Nat) (s : Str) :
    splitSepSkip sep n s = splitSep sep (s.drop n) := by
  induction s generalizing n with
  | nil => cases n <;> rfl
  | cons c cs ih =>
    cases n with
    | zero => rfl
    | succ m => simpa [splitSepSkip] using ih m

theorem splitSep_cons (sep : Str) (c : Char) (cs : Str) :
    splitSep sep (c :: cs) =
      if strStarts sep (c :: cs) then
        [] :: splitSep sep (cs.drop (sep.length - 1))
      else
        match splitSep sep cs with
        | [] => [[c]]
        | h :: t => (c :: h) :: t := by
  show splitSepSkip sep 0 (c :: cs) = _
  rw [splitSepSkip]
  rw [splitSepSkip_eq_drop]
  rfl

theorem splitSep_no_sep (sep : Str) :
    ∀ (s : Str), containsSub sep s = false → splitSep sep s = [s] := by
  intro s
  induction s with
  | nil => intro _; rfl
  | cons c cs ih =>
    intro h
    rw [containsSub, Bool.or_eq_false_iff] at h
    rw [splitSep_cons, if_neg (by simp [h.1]), ih h.2]

/-- The second element of a Python split, `line.split(" - ")[1]`. -/
def splitIndex1 (sep s : Str) : Str :=
  match splitSep sep s with
  | _ :: x :: _ => x
  | _ => []

/-- A history turn of `context_store.py`; the timestamp type is a
parameter standing for `datetime`, with its `isoformat` and
`fromisoformat` functions passed explicitly. -/
structure HTurn (DT : Type) where
  role : String
  content : Str
  timestamp : DT

/-- The header line of one turn, without the trailing newline:
`## {role_name} - {timestamp}` from `_format_history`. -/
def headerPart {DT : Type} (iso : DT → Str) (t : HTurn DT) : Str :=
  "## ".toList ++ (if t.role = "user" then "User".toList else "Assistant".toList) ++
    sepDash ++ iso t.timestamp

/-- Embedding of `ContextStore._format_history`: the title line, then for
each turn a header line, the content and a newline element, all joined
with newlines. -/
def formatHistory {DT : Type} (iso : DT → Str) (history : List (HTurn DT)) : Str :=
  joinNl (["# Conversation History\n".toList] ++
    history.flatMap fun t => [headerPart iso t ++ ['\n'], t.content, ['\n']])

/-- The parser state of `_parse_history`: current role, collected content
lines, current timestamp and the turns parsed so far. -/
structure PState (DT : Type) where
  role : Option String
  content : List Str
  ts : Option DT
  acc : List (HTurn DT)

/-- The turn flush of `_parse_history` (`if current_role and
current_content: history.append(...)`): the content lines are joined and
stripped, a missing timestamp falls back to the current time. -/
def flushTurn {DT : Type} (now : DT) (st : PState DT) : List (HTurn DT) :=
  match st.role with
  | some r =>
    if st.content ≠ [] then
      st.acc ++ [⟨r, pyStrip (joinNl st.content), st.ts.getD now⟩]
    else st.acc
  | none => st.acc

/-- The timestamp update on a header line: when the line contains
`" - "`, parse the second split fragment; a parse failure falls back to
the current time; without `" - "` the previous timestamp is kept. -/
def parseTs {DT : Type} (fromiso : Str → Option DT) (now : DT) (line : Str)
    (cur : Option DT) : Option DT :=
  if containsSub sepDash line then
    match fromiso (splitIndex1 sepDash line) with
    | some d => some d
    | none => some now
  else cur

/-- One line of `_parse_history`: header lines flush the pending turn and
reset the state; other lines are collected once a role is active. -/
def parseStep {DT : Type} (fromiso : Str → Option DT) (now : DT) (st : PState DT)
    (line : Str) : PState DT :=
  if strStarts "## User".toList line then
    { role := some "user", content := [], ts := parseTs fromiso now line st.ts,
      acc := flushTurn now st }
  else if strStarts "## Assistant".toList line then
    { role := some "assistant", content := [], ts := parseTs fromiso now line st.ts,
      acc := flushTurn now st }
  else if st.role.isSome then { st with content := st.content ++ [line] }
  else st

/-- Embedding of `ContextStore._parse_history`. -/
def parseHistory {DT : Type} (fromiso : Str → Option DT) (now : DT) (content : Str) :
    List (HTurn DT) :=
  flushTurn now ((splitNl content).foldl (parseStep fromiso now) ⟨none, [], none, []⟩)

theorem stripEnd_append_space {c : Char} (hc : isSpaceChar c = true) :
    ∀ (s : Str), stripEnd (s ++ [c]) = stripEnd s := by
  intro s
  induction s with
  | nil => simp [stripEnd, hc]
  | cons d ds ih =>
    rw [List.cons_append, stripEnd, ih]
    rw [stripEnd]

theorem pyStrip_cons_space {c : Char} (hc : isSpaceChar c = true) (s : Str) :
    pyStrip (c :: s) = pyStrip s := by
  unfold pyStrip
  cases h : stripEnd s with
  | nil => rw [stripEnd_cons_nil h, if_pos hc]
  | cons d r =>
    rw [stripEnd_cons_cons h]
    simp [List.dropWhile, hc]

theorem pyStrip_append_space {c : Char} (hc : isSpaceChar c = true) (s : Str) :
    pyStrip (s ++ [c]) = pyStrip s := by
  unfold pyStrip
  rw [stripEnd_append_space hc]

theorem joinNl_cons2 (x y : Str) (zs : List Str) :
    joinNl (x :: y :: zs) = x ++ '\n' :: joinNl (y :: zs) := by
  rw [joinNl, intercalate_cons2, ← joinNl]
  simp

theorem joinNl_append_two :
    ∀ (L : List Str), L ≠ [] → joinNl (L ++ [[], []]) = joinNl L ++ ['\n', '\n'] := by
  intro L
  induction L with
  | nil => intro h; exact absurd rfl h
  | cons x xs ih =>
    intro _
    cases xs with
    | nil =>
      rw [List.cons_append, List.nil_append, joinNl_cons2, joinNl_cons2]
      simp [joinNl, intercalate_single]
    | cons y ys =>
      show joinNl (x :: y :: (ys ++ [[], []])) = joinNl (x :: y :: ys) ++ ['\n', '\n']
      rw [joinNl_cons2, joinNl_cons2]
      rw [show (y :: (ys ++ [[], []]) : List Str) = (y :: ys) ++ [[], []] from rfl,
        ih (by simp)]
      simp

/-- The content collected for one turn, rejoined and stripped as in the
flush of `_parse_history`, is the strip of the original content. -/
theorem pyStrip_block (C : Str) :
    pyStrip (joinNl ([] :: (splitNl C ++ [[], []]))) = pyStrip C := by
  have h1 : splitNl C ++ [[], []] ≠ [] := by
    cases hs : splitNl C with
    | nil => exact absurd hs (splitNl_ne_nil C)
    | cons a l => simp
  obtain ⟨a, l, hal⟩ : ∃ a l, splitNl C ++ [[], []] = a :: l := by
    cases hs : splitNl C with
    | nil => exact absurd hs (splitNl_ne_nil C)
    | cons a l => exact ⟨a, l ++ [[], []], by simp⟩
  rw [hal, joinNl_cons2, ← hal, List.nil_append]
  rw [joinNl_append_two (splitNl C) (splitNl_ne_nil C), joinNl_splitNl]
  rw [pyStrip_cons_space (by decide)]
  rw [show (C ++ ['\n', '\n'] : Str) = (C ++ ['\n']) ++ ['\n'] from by simp]
  rw [pyStrip_append_space (by decide), pyStrip_append_space (by decide)]

theorem splitSep_cons_ne (c : Char) (cs x : Str) (xs : List Str)
    (hcs : splitSep sepDash cs = x :: xs)
    (hc : strStarts sepDash (c :: cs) = false) :
    splitSep sepDash (c :: cs) = (c :: x) :: xs := by
  rw [splitSep_cons, if_neg (by simp [hc]), hcs]

/-- A user header line `## User - TS` splits on `" - "` into the role
part and the timestamp, provided the timestamp has no `" - "`. -/
theorem splitSep_user_header (TS : Str) (h : containsSub sepDash TS = false) :
    splitSep sepDash ("## ".toList ++ "User".toList ++ sepDash ++ TS) =
      ["## User".toList, TS] := by
  have h0 : splitSep sepDash TS = [TS] := splitSep_no_sep sepDash TS h
  have h1 : splitSep sepDash (' ' :: '-' :: ' ' :: TS) = [[], TS] := by
    rw [splitSep_cons,
      if_pos (show strStarts sepDash (' ' :: '-' :: ' ' :: TS) = true from rfl)]
    rw [show (('-' :: ' ' :: TS).drop (sepDash.length - 1)) = TS from rfl, h0]
  have h2 := splitSep_cons_ne 'r' _ _ _ h1 rfl
  have h3 := splitSep_cons_ne 'e' _ _ _ h2 rfl
  have h4 := splitSep_cons_ne 's' _ _ _ h3 rfl
  have h5 := splitSep_cons_ne 'U' _ _ _ h4 rfl
  have h6 := splitSep_cons_ne ' ' _ _ _ h5 rfl
  have h7 := splitSep_cons_ne '#' _ _ _ h6 rfl
  have h8 := splitSep_cons_ne '#' _ _ _ h7 rfl
  exact h8

/-- An assistant header line `## Assistant - TS` splits on `" - "` into
the role part and the timestamp, provided the timestamp has no `" - "`. -/
theorem splitSep_assistant_header (TS : Str) (h : containsSub sepDash TS = false) :
    splitSep sepDash ("## ".toList ++ "Assistant".toList ++ sepDash ++ TS) =
      ["## Assistant".toList, TS] := by
  have h0 : splitSep sepDash TS = [TS] := splitSep_no_sep sepDash TS h
  have h1 : splitSep sepDash (' ' :: '-' :: ' ' :: TS) = [[], TS] := by
    rw [splitSep_cons,
      if_pos (show strStarts sepDash (' ' :: '-' :: ' ' :: TS) = true from rfl)]
    rw [show (('-' :: ' ' :: TS).drop (sepDash.length - 1)) = TS from rfl, h0]
  have h2 := splitSep_cons_ne 't' _ _ _ h1 rfl
  have h3 := splitSep_cons_ne 'n' _ _ _ h2 rfl
  have h4 := splitSep_cons_ne 'a' _ _ _ h3 rfl
  have h5 := splitSep_cons_ne 't' _ _ _ h4 rfl
  have h6 := splitSep_cons_ne 's' _ _ _ h5 rfl
  have h7 := splitSep_cons_ne 'i' _ _ _ h6 rfl
  have h8 := splitSep_cons_ne 's' _ _ _ h7 rfl
  have h9 := splitSep_cons_ne 's' _ _ _ h8 rfl
  have h10 := splitSep_cons_ne 'A' _ _ _ h9 rfl
  have h11 := splitSep_cons_ne ' ' _ _ _ h10 rfl
  have h12 := splitSep_cons_ne '#' _ _ _ h11 rfl
  have h13 := splitSep_cons_ne '#' _ _ _ h12 rfl
  exact h13

theorem containsSub_uheader (TS : Str) :
    containsSub sepDash ("## ".toList ++ "User".toList ++ sepDash ++ TS) = true := rfl

theorem containsSub_aheader (TS : Str) :
    containsSub sepDash ("## ".toList ++ "Assistant".toList ++ sepDash ++ TS) = true := rfl

theorem strStarts_user_uheader (TS : Str) :
    strStarts "## User".toList ("## ".toList ++ "User".toList ++ sepDash ++ TS) = true := rfl

theorem strStarts_assistant_uheader (TS : Str) :
    strStarts "## Assistant".toList ("## ".toList ++ "User".toList ++ sepDash ++ TS) =
      false := rfl

theorem strStarts_user_aheader (TS : Str) :
    strStarts "## User".toList ("## ".toList ++ "Assistant".toList ++ sepDash ++ TS) =
      false := rfl

theorem strStarts_assistant_aheader (TS : Str) :
    strStarts "## Assistant".toList ("## ".toList ++ "Assistant".toList ++ sepDash ++ TS) =
      true := rfl

theorem parseTs_uheader {DT : Type} (fromiso : Str → Option DT) (now : DT) (TS : Str)
    (hsep : containsSub sepDash TS = false) (cur : Option DT) :
    parseTs fromiso now ("## ".toList ++ "User".toList ++ sepDash ++ TS) cur =
      match fromiso TS with
      | some d => some d
      | none => some now := by
  rw [parseTs, if_pos (containsSub_uheader TS)]
  rw [splitIndex1, splitSep_user_header TS hsep]

theorem parseTs_aheader {DT : Type} (fromiso : Str → Option DT) (now : DT) (TS : Str)
    (hsep : containsSub sepDash TS = false) (cur : Option DT) :
    parseTs fromiso now ("## ".toList ++ "Assistant".toList ++ sepDash ++ TS) cur =
      match fromiso TS with
      | some d => some d
      | none => some now := by
  rw [parseTs, if_pos (containsSub_aheader TS)]
  rw [splitIndex1, splitSep_assistant_header TS hsep]

/-- The role string after a parse round trip: `_format_history` writes
`User` exactly for role `"user"` and `Assistant` otherwise, and
`_parse_history` maps those headers back to `"user"`/`"assistant"`. -/
def normRole (r : String) : String := if r = "user" then "user" else "assistant"

/-- The lines contributed to the history file by one turn: its header,
an empty line, its content lines and two empty lines. -/
def blockLines {DT : Type} (iso : DT → Str) (t : HTurn DT) : List Str :=
  headerPart iso t :: [] :: (splitNl t.content ++ [[], []])

theorem parse_collect {DT : Type} (fromiso : Str → Option DT) (now : DT) :
    ∀ (lines : List Str),
      (∀ line ∈ lines, strStarts "## User".toList line = false ∧
        strStarts "## Assistant".toList line = false) →
      ∀ (r : String) (cont : List Str) (ts : Option DT) (acc : List (HTurn DT)),
        lines.foldl (parseStep fromiso now) ⟨some r, cont, ts, acc⟩ =
          ⟨some r, cont ++ lines, ts, acc⟩ := by
  intro lines
  induction lines with
  | nil => intro _ r cont ts acc; simp
  | cons l ls ih =>
    intro h r cont ts acc
    have hl := h l (by simp)
    rw [List.foldl_cons,
      show parseStep fromiso now ⟨some r, cont, ts, acc⟩ l =
          ⟨some r, cont ++ [l], ts, acc⟩ from by
        rw [parseStep, if_neg (by rw [hl.1]; simp), if_neg (by rw [hl.2]; simp),
          if_pos (show (some r).isSome = true from rfl)],
      ih (fun x hx => h x (by simp [hx])) r (cont ++ [l]) ts acc]
    simp

theorem parse_block {DT : Type} (fromiso : Str → Option DT) (iso : DT → Str) (now : DT)
    (hiso : ∀ d, fromiso (iso d) = some d)
    (hsep : ∀ d, containsSub sepDash (iso d) = false)
    (t : HTurn DT)
    (hlines : ∀ line ∈ splitNl t.content, strStarts "## User".toList line = false ∧
      strStarts "## Assistant".toList line = false)
    (st : PState DT) :
    (blockLines iso t).foldl (parseStep fromiso now) st =
      ⟨some (normRole t.role), [] :: (splitNl t.content ++ [[], []]),
        some t.timestamp, flushTurn now st⟩ := by
  have hall : ∀ line ∈ splitNl t.content ++ [[], []],
      strStarts "## User".toList line = false ∧
      strStarts "## Assistant".toList line = false := by
    intro line hl
    rcases List.mem_append.mp hl with h | h
    · exact hlines line h
    · have : line = [] := by simpa using h
      subst this
      exact ⟨rfl, rfl⟩
  rw [blockLines, List.foldl_cons, List.foldl_cons]
  by_cases hr : t.role = "user"
  · have hhead : headerPart iso t =
        "## ".toList ++ "User".toList ++ sepDash ++ iso t.timestamp := by
      rw [headerPart, if_pos hr]
    have hstep1 : parseStep fromiso now st (headerPart iso t) =
        ⟨some "user", [], some t.timestamp, flushTurn now st⟩ := by
      rw [hhead, parseStep, if_pos (strStarts_user_uheader _),
        parseTs_uheader fromiso now _ (hsep t.timestamp) st.ts, hiso t.timestamp]
    rw [hstep1,
      show parseStep fromiso now ⟨some "user", [], some t.timestamp, flushTurn now st⟩ [] =
          ⟨some "user", [[]], some t.timestamp, flushTurn now st⟩ from rfl,
      parse_collect fromiso now _ hall "user" [[]] (some t.timestamp) (flushTurn now st)]
    rw [normRole, if_pos hr]
    rfl
  · have hhead : headerPart iso t =
        "## ".toList ++ "Assistant".toList ++ sepDash ++ iso t.timestamp := by
      rw [headerPart, if_neg hr]
    have hstep1 : parseStep fromiso now st (headerPart iso t) =
        ⟨some "assistant", [], some t.timestamp, flushTurn now st⟩ := by
      rw [hhead, parseStep, if_neg (by rw [strStarts_user_aheader]; simp),
        if_pos (strStarts_assistant_aheader _),
        parseTs_aheader fromiso now _ (hsep t.timestamp) st.ts, hiso t.timestamp]
    rw [hstep1,
      show parseStep fromiso now
            ⟨some "assistant", [], some t.timestamp, flushTurn now st⟩ [] =
          ⟨some "assistant", [[]], some t.timestamp, flushTurn now st⟩ from rfl,
      parse_collect fromiso now _ hall "assistant" [[]] (some t.timestamp)
        (flushTurn now st)]
    rw [normRole, if_neg hr]
    rfl

theorem parse_blocks {DT : Type} (fromiso : Str → Option DT) (iso : DT → Str) (now : DT)
    (hiso : ∀ d, fromiso (iso d) = some d)
    (hsep : ∀ d, containsSub sepDash (iso d) = false) :
    ∀ (history : List (HTurn DT)),
      (∀ t ∈ history, ∀ line ∈ splitNl t.content,
        strStarts "## User".toList line = false ∧
        strStarts "## Assistant".toList line = false) →
      ∀ (st : PState DT),
        flushTurn now
            ((history.flatMap (blockLines iso)).foldl (parseStep fromiso now) st) =
          flushTurn now st ++
            history.map (fun t => ⟨normRole t.role, pyStrip t.content, t.timestamp⟩) := by
  intro history
  induction history with
  | nil => intro _ st; simp
  | cons t hs ih =>
    intro h st
    rw [List.flatMap_cons, List.foldl_append,
      parse_block fromiso iso now hiso hsep t (h t (by simp)) st,
      ih (fun u hu => h u (by simp [hu])) _]
    have hflush : flushTurn now
        (⟨some (normRole t.role), [] :: (splitNl t.content ++ [[], []]),
          some t.timestamp, flushTurn now st⟩ : PState DT) =
        flushTurn now st ++ [⟨normRole t.role, pyStrip t.content, t.timestamp⟩] := by
      have hc := pyStrip_block t.content
      simp [flushTurn, hc]
    rw [hflush]
    simp

theorem flatten_map_flatMap {α : Type} (g : Str → List Str) (f : α → List Str) :
    ∀ (l : List α),
      ((l.flatMap f).map g).flatten = l.flatMap fun a => ((f a).map g).flatten := by
  intro l
  induction l with
  | nil => rfl
  | cons x xs ih => simp [List.flatMap_cons, ih]

theorem nl_not_mem_headerPart {DT : Type} (iso : DT → Str) (t : HTurn DT)
    (hnl : '\n' ∉ iso t.timestamp) : '\n' ∉ headerPart iso t := by
  rw [headerPart]
  intro hmem
  rcases List.mem_append.mp hmem with hmem | hmem
  · rcases List.mem_append.mp hmem with hmem | hmem
    · rcases List.mem_append.mp hmem with hmem | hmem
      · exact absurd hmem (by decide)
      · by_cases hr : t.role = "user"
        · rw [if_pos hr] at hmem; exact absurd hmem (by decide)
        · rw [if_neg hr] at hmem; exact absurd hmem (by decide)
    · exact absurd hmem (by decide)
  · exact hnl hmem

/-- Parsing a serialized history yields the original turns, with the role
normalized to `"user"`/`"assistant"` and the content stripped. -/
theorem parseHistory_formatHistory {DT : Type} (fromiso : Str → Option DT)
    (iso : DT → Str) (now : DT)
    (hiso : ∀ d, fromiso (iso d) = some d)
    (hnl : ∀ d, '\n' ∉ iso d)
    (hsep : ∀ d, containsSub sepDash (iso d) = false)
    (history : List (HTurn DT))
    (hlines : ∀ t ∈ history, ∀ line ∈ splitNl t.content,
      strStarts "## User".toList line = false ∧
      strStarts "## Assistant".toList line = false) :
    parseHistory fromiso now (formatHistory iso history) =
      history.map (fun t => ⟨normRole t.role, pyStrip t.content, t.timestamp⟩) := by
  have hpiece : ∀ (t : HTurn DT),
      (([headerPart iso t ++ ['\n'], t.content, ['\n']] : List Str).map splitNl).flatten =
        blockLines iso t := by
    intro t
    simp only [List.map_cons, List.map_nil, List.flatten_cons, List.flatten_nil]
    rw [show (headerPart iso t ++ ['\n'] : Str) = headerPart iso t ++ '\n' :: [] from rfl,
      splitNl_append,
      splitNl_no_newline (nl_not_mem_headerPart iso t (hnl t.timestamp))]
    simp [blockLines, splitNl]
  have hfile : splitNl (formatHistory iso history) =
      "# Conversation History".toList :: [] :: history.flatMap (blockLines iso) := by
    rw [formatHistory, List.singleton_append, splitNl_joinNl_flatten,
      flatten_map_flatMap splitNl _ history]
    rw [show splitNl ("# Conversation History\n".toList) =
        ["# Conversation History".toList, []] from by decide]
    rw [show (history.flatMap fun t =>
          (([headerPart iso t ++ ['\n'], t.content, ['\n']] : List Str).map splitNl).flatten) =
        history.flatMap (blockLines iso) from by
      induction history with
      | nil => rfl
      | cons u us ihu => rw [List.flatMap_cons, List.flatMap_cons, hpiece u,
          ihu (fun v hv => hlines v (List.mem_cons_of_mem u hv))]]
    simp
  rw [parseHistory, hfile, List.foldl_cons,
    show parseStep fromiso now ⟨none, [], none, []⟩ ("# Conversation History".toList) =
      ⟨none, [], none, []⟩ from rfl,
    List.foldl_cons,
    show parseStep fromiso now (⟨none, [], none, []⟩ : PState DT) [] =
      ⟨none, [], none, []⟩ from rfl,
    parse_blocks fromiso iso now hiso hsep history hlines ⟨none, [], none, []⟩]
  rfl

/-- C2: round-trip of the context store's history serialization. For a
timestamp type whose `isoformat`/`fromisoformat` pair inverts
(`fromiso (iso d) = some d`) and whose rendering contains no newline and
no `" - "`, re-serializing the parse of a serialized history reproduces
the file exactly, provided each turn's content is strip-invariant
(`content.strip() = content`) and none of its lines starts with
`## User` or `## Assistant`. Without the strip-invariance proviso the
round trip fails, so the claim as stated over every turn list is
corrected, not confirmed. -/
theorem format_parse_roundtrip {DT : Type} (fromiso : Str → Option DT)
    (iso : DT → Str) (now : DT)
    (hiso : ∀ d, fromiso (iso d) = some d)
    (hnl : ∀ d, '\n' ∉ iso d)
    (hsep : ∀ d, containsSub sepDash (iso d) = false)
    (history : List (HTurn DT))
    (hcontent : ∀ t ∈ history, pyStrip t.content = t.content)
    (hlines : ∀ t ∈ history, ∀ line ∈ splitNl t.content,
      strStarts "## User".toList line = false ∧
      strStarts "## Assistant".toList line = false) :
    formatHistory iso (parseHistory fromiso now (formatHistory iso history)) =
      formatHistory iso history := by
  rw [parseHistory_formatHistory fromiso iso now hiso hnl hsep history hlines]
  rw [formatHistory, formatHistory]
  have hmap : ∀ (h : List (HTurn DT)), (∀ t ∈ h, pyStrip t.content = t.content) →
      ((h.map fun t => (⟨normRole t.role, pyStrip t.content, t.timestamp⟩ : HTurn DT)).flatMap
          fun t => [headerPart iso t ++ ['\n'], t.content, ['\n']]) =
        h.flatMap fun t => [headerPart iso t ++ ['\n'], t.content, ['\n']] := by
    intro h
    induction h with
    | nil => intro _; rfl
    | cons t ts ih =>
      intro hc
      rw [List.map_cons, List.flatMap_cons, List.flatMap_cons,
        ih (fun u hu => hc u (List.mem_cons_of_mem t hu))]
      have hthis : ([headerPart iso ⟨normRole t.role, pyStrip t.content, t.timestamp⟩ ++ ['\n'],
          pyStrip t.content, ['\n']] : List Str) =
          [headerPart iso t ++ ['\n'], t.content, ['\n']] := by
        rw [hc t (List.mem_cons_self t ts)]
        rw [headerPart, headerPart]
        by_cases hr : t.role = "user"
        · rw [if_pos hr,
            if_pos (show (⟨normRole t.role, t.content, t.timestamp⟩ : HTurn DT).role = "user"
              from by simp [normRole, hr])]
        · rw [if_neg hr,
            if_neg (show ¬(⟨normRole t.role, t.content, t.timestamp⟩ : HTurn DT).role = "user"
              from by simp [normRole, hr])]
      rw [hthis]
  rw [hmap history hcontent]

/-- Isoformat model for the trivial timestamp type used in the concrete
C2 instances. -/
def isoU : Unit → Str := fun _ => "T".toList

/-- Fromisoformat model for the trivial timestamp type: every string
parses to the unique timestamp. -/
def fromisoU : Str → Option Unit := fun _ => some ()

/-- C2 counterexample: a turn whose content carries leading whitespace
(`" x"`) does not round-trip - the parser strips the rejoined content,
so re-serializing yields a different file. -/
theorem format_parse_roundtrip_counterexample :
    formatHistory isoU (parseHistory fromisoU ()
        (formatHistory isoU [⟨"user", " x".toList, ()⟩])) ≠
      formatHistory isoU [⟨"user", " x".toList, ()⟩] := by decide

/-- C2 witness: a two-turn history with strip-invariant contents
round-trips exactly. -/
theorem format_parse_roundtrip_witness :
    formatHistory isoU (parseHistory fromisoU ()
        (formatHistory isoU [⟨"user", "hi".toList, ()⟩, ⟨"assistant", "ok".toList, ()⟩])) =
      formatHistory isoU [⟨"user", "hi".toList, ()⟩, ⟨"assistant", "ok".toList, ()⟩] :=
  format_parse_roundtrip fromisoU isoU ()
    (fun _ => rfl) (fun _ => by show '\n' ∉ "T".toList; decide)
    (fun _ => by show containsSub sepDash "T".toList = false; decide)
    [⟨"user", "hi".toList, ()⟩, ⟨"assistant", "ok".toList, ()⟩]
    (by decide) (by decide)

/-- Memory source categories of `models/memory.py`. -/
inductive MemorySource
  | memory
  | sessions
  | extra
deriving DecidableEq

/-- One chunk produced by `_chunk_text`; the hash column is modelled as
the chunk text itself (an injective stand-in for the sha256 prefix). -/
structure Chunk where
  path : Str
  source : MemorySource
  startLine : Nat
  endLine : Nat
  text : Str
deriving DecidableEq

/-- A row of the `chunks` table; `hasEmbedding` models whether the
`embedding` column is non-null. -/
structure ChunkRow where
  id : Nat
  path : Str
  source : MemorySource
  startLine : Nat
  endLine : Nat
  text : Str
  hasEmbedding : Bool
deriving DecidableEq

/-- The database state of `MemoryIndex`: the `files` table (path and
content hash, the hash modelled as the full content), the `chunks`
table, the `chunks_fts` mirror (rowid and text), the `chunks_vec` table
(chunk ids) and the AUTOINCREMENT counter. -/
structure DBState where
  files : List (Str × Str)
  chunks : List ChunkRow
  fts : List (Nat × Str)
  vec : List Nat
  nextId : Nat
deriving DecidableEq

/-- The empty database after `_create_schema`. -/
def initDB : DBState := ⟨[], [], [], [], 1⟩

/-- The overlap loop of `_chunk_text` run over the reversed current
chunk lines: returns the overlap lines (in original order), their token
count, and the final value of the loop variable `line` - which the code
leaks into the enclosing scope. -/
def ovLoop (tok : Str → Nat) (ov : Nat) :
    List Str → List Str → Nat → Option Str → (List Str × Nat × Option Str)
  | [], olines, otoks, last => (olines, otoks, last)
  | l :: rest, olines, otoks, _ =>
    if otoks + tok l > ov then (olines, otoks, some l)
    else ovLoop tok ov rest (l :: olines) (otoks + tok l) (some l)

/-- The loop state of `_chunk_text`. -/
structure CState where
  chunks : List Chunk
  cur : List Str
  curTok : Nat
  startLine : Nat

/-- One iteration of the chunking loop of `_chunk_text` on the
enumerated line `(i, line)`. Note the faithful modelling of the source's
variable capture: the overlap loop reuses the name `line`, so the line
appended to the new chunk after an overflow is the last line examined by
the overlap loop, not the current input line (while the token count
added is still that of the input line). -/
def chunkStep (tok : Str → Nat) (size ov : Nat) (path : Str) (source : MemorySource)
    (st : CState) (il : Nat × Str) : CState :=
  let i := il.1
  let line := il.2
  let lineTokens := tok line
  if st.curTok + lineTokens > size ∧ st.cur ≠ [] then
    let ctext := joinNl st.cur
    let c : Chunk := ⟨path, source, st.startLine, i - 1, ctext⟩
    let r := ovLoop tok ov st.cur.reverse [] 0 none
    let clobbered := r.2.2.getD line
    ⟨st.chunks ++ [c], r.1 ++ [clobbered], r.2.1 + lineTokens, i - r.1.length⟩
  else
    ⟨st.chunks, st.cur ++ [line], st.curTok + lineTokens, st.startLine⟩

/-- Embedding of `MemoryIndex._chunk_text`, parametric in the token
counter. -/
def chunkText (tok : Str → Nat) (size ov : Nat) (text path : Str)
    (source : MemorySource) : List Chunk :=
  let lines := splitNl text
  let st := (List.enumFrom 1 lines).foldl (chunkStep tok size ov path source) ⟨[], [], 0, 1⟩
  if st.cur ≠ [] then
    st.chunks ++ [⟨path, source, st.startLine, lines.length, joinNl st.cur⟩]
  else st.chunks

/-- `DELETE FROM chunks WHERE path = ?` together with the `chunks_ad`
trigger, which removes the deleted rowids from `chunks_fts`. -/
def deleteChunks (db : DBState) (path : Str) : DBState :=
  { db with
    chunks := db.chunks.filter (fun r => ¬ r.path = path),
    fts := db.fts.filter (fun e =>
      ¬ (db.chunks.filter (fun r => r.path = path)).any (fun r => r.id = e.1)) }

/-- Insertion of one chunk row: the `chunks` insert (embedding set, so
the column is non-null), the `chunks_ai` trigger insert into
`chunks_fts`, and - only when `withVec` - the `chunks_vec` insert that
`index_file` performs and `index_text` does not. -/
def insertChunkRow (withVec : Bool) (d : DBState) (c : Chunk) : DBState :=
  { d with
    chunks := d.chunks ++ [⟨d.nextId, c.path, c.source, c.startLine, c.endLine, c.text, true⟩],
    fts := d.fts ++ [(d.nextId, c.text)],
    vec := if withVec then d.vec ++ [d.nextId] else d.vec,
    nextId := d.nextId + 1 }

/-- `INSERT OR REPLACE INTO files`. -/
def upsertFile (files : List (Str × Str)) (path content : Str) : List (Str × Str) :=
  files.filter (fun f => ¬ f.1 = path) ++ [(path, content)]

/-- Embedding of `MemoryIndex.index_text` (success path of the embedding
provider): delete the path's chunks, re-chunk, insert the chunks - with
no `chunks_vec` writes - and record the file. -/
def indexText (tok : Str → Nat) (size ov : Nat) (db : DBState)
    (text path : Str) (source : MemorySource) : DBState :=
  let db1 := deleteChunks db path
  let cs := chunkText tok size ov text path source
  if cs = [] then db1
  else
    let db2 := cs.foldl (insertChunkRow false) db1
    { db2 with files := upsertFile db2.files path text }

/-- Embedding of `MemoryIndex.index_file` (file readable, embedding
provider succeeds): unchanged-hash guard, chunk deletion, then the
`chunks_vec` deletion whose subquery `SELECT id FROM chunks WHERE
path = ?` runs after the chunks are already gone, then re-chunk, insert
(with `chunks_vec` rows when the vector index is enabled) and record the
file. -/
def indexFile (tok : Str → Nat) (size ov : Nat) (useVec : Bool) (db : DBState)
    (content path : Str) (source : MemorySource) : DBState :=
  if (db.files.find? (fun f => f.1 = path)).any (fun f => f.2 = content) then db
  else
    let db1 := deleteChunks db path
    let db2 :=
      if useVec then
        { db1 with vec := db1.vec.filter (fun cid =>
            ¬ (db1.chunks.filter (fun r => r.path = path)).any (fun r => r.id = cid)) }
      else db1
    let cs := chunkText tok size ov content path source
    if cs = [] then db2
    else
      let db3 := cs.foldl (insertChunkRow useVec) db2
      { db3 with files := upsertFile db3.files path content }

/-- An indexing operation on the memory index. -/
inductive MemOp
  | file (content path : Str) (source : MemorySource)
  | text (content path : Str) (source : MemorySource)

/-- Apply one indexing operation. -/
def applyOp (tok : Str → Nat) (size ov : Nat) (useVec : Bool) (db : DBState) :
    MemOp → DBState
  | .file content path source => indexFile tok size ov useVec db content path source
  | .text content path source => indexText tok size ov db content path source

/-- Apply a sequence of indexing operations. -/
def applyOps (tok : Str → Nat) (size ov : Nat) (useVec : Bool) (db : DBState)
    (ops : List MemOp) : DBState :=
  ops.foldl (applyOp tok size ov useVec) db

/-- Insertion step of the start-line ordering used by `get`. -/
def insertByStart (r : ChunkRow) : List ChunkRow → List ChunkRow
  | [] => [r]
  | x :: xs => if r.startLine ≤ x.startLine then r :: x :: xs else x :: insertByStart r xs

/-- `ORDER BY start_line` over the selected rows. -/
def sortByStart (l : List ChunkRow) : List ChunkRow := l.foldr insertByStart []

/-- Embedding of `MemoryIndex.get` in the case where no filesystem file
exists at the path: reconstruct the content by joining the path's chunk
texts in start-line order; `None` when the path has no chunks. -/
def getMem (db : DBState) (path : Str) : Option Str :=
  let rows := sortByStart (db.chunks.filter (fun r => r.path = path))
  match rows with
  | [] => none
  | _ => some (joinNl (rows.map (fun r => r.text)))

/-- The synchronization invariant of the claim: `chunks_fts` mirrors the
`chunks` table row for row, chunk ids are distinct and below the
AUTOINCREMENT counter. -/
def DBInv (db : DBState) : Prop :=
  db.fts = db.chunks.map (fun r => (r.id, r.text)) ∧
  (db.chunks.map (fun r => r.id)).Nodup ∧
  ∀ r ∈ db.chunks, r.id < db.nextId

theorem filter_map_comm {α β : Type} (f : α → β) (q : β → Bool) :
    ∀ l : List α, (l.map f).filter q = (l.filter (fun a => q (f a))).map f := by
  intro l
  induction l with
  | nil => rfl
  | cons x xs ih =>
    simp only [List.map_cons, List.filter_cons]
    cases h : q (f x) <;> simp [h, ih]

theorem filter_congr_mem {α : Type} (p q : α → Bool) :
    ∀ l : List α, (∀ a ∈ l, p a = q a) → l.filter p = l.filter q := by
  intro l
  induction l with
  | nil => intro _; rfl
  | cons x xs ih =>
    intro h
    simp only [List.filter_cons]
    rw [h x (by simp), ih (fun a ha => h a (by simp [ha]))]

theorem any_id_filter (P : ChunkRow → Bool) :
    ∀ (l : List ChunkRow) (r : ChunkRow), r ∈ l →
      (l.map (fun s => s.id)).Nodup →
      ((l.filter P).any fun s => decide (s.id = r.id)) = P r := by
  intro l
  induction l with
  | nil => intro r hr; exact absurd hr (by simp)
  | cons c cs ih =>
    intro r hr hnd
    rw [List.map_cons, List.nodup_cons] at hnd
    rcases List.mem_cons.mp hr with hr | hr
    · subst hr
      rw [List.filter_cons]
      cases hp : P r
      · rw [if_neg (by simp [hp])]
        rw [List.any_eq_false]
        intro s hs
        have hsm := List.mem_of_mem_filter hs
        have hne : ¬ s.id = r.id :=
          fun he => hnd.1 (he ▸ List.mem_map_of_mem (fun s => s.id) hsm)
        simp [hne]
      · simp
    · have hcid : ¬ c.id = r.id :=
        fun he => hnd.1 (he ▸ List.mem_map_of_mem (fun s => s.id) hr)
      rw [List.filter_cons]
      cases hp : P c
      · rw [if_neg (by simp [hp])]
        exact ih r hr hnd.2
      · simp [hcid, ih r hr hnd.2]

theorem deleteChunks_dbinv (db : DBState) (path : Str) (h : DBInv db) :
    DBInv (deleteChunks db path) := by
  obtain ⟨hfts, hnd, hlt⟩ := h
  refine ⟨?_, ?_, ?_⟩
  · show db.fts.filter _ = (db.chunks.filter _).map _
    rw [hfts, filter_map_comm]
    congr 1
    apply filter_congr_mem
    intro a ha
    have hany := any_id_filter (fun s => decide (s.path = path)) db.chunks a ha hnd
    simp [hany]
  · exact List.Nodup.sublist
      (List.Sublist.map (fun r => r.id) (List.filter_sublist db.chunks)) hnd
  · intro r hr
    exact hlt r (List.mem_of_mem_filter hr)

theorem insertChunkRow_dbinv (withVec : Bool) (d : DBState) (c : Chunk) (h : DBInv d) :
    DBInv (insertChunkRow withVec d c) := by
  obtain ⟨hfts, hnd, hlt⟩ := h
  refine ⟨?_, ?_, ?_⟩
  · show d.fts ++ _ = (d.chunks ++ _).map _
    rw [hfts, List.map_append]
    rfl
  · show ((d.chunks ++ _).map (fun r => r.id)).Nodup
    rw [List.map_append, List.nodup_append]
    refine ⟨hnd, by simp, ?_⟩
    intro x hx hx2
    simp only [List.map_cons, List.map_nil, List.mem_singleton] at hx2
    subst hx2
    rcases List.mem_map.mp hx with ⟨r, hr, hrx⟩
    exact absurd hrx (Nat.ne_of_lt (hlt r hr))
  · intro r hr
    rcases List.mem_append.mp hr with hr | hr
    · exact Nat.lt_succ_of_lt (hlt r hr)
    · simp only [List.mem_singleton] at hr
      subst hr
      exact Nat.lt_succ_self _

theorem foldl_insert_dbinv (withVec : Bool) :
    ∀ (cs : List Chunk) (d : DBState), DBInv d →
      DBInv (cs.foldl (insertChunkRow withVec) d) := by
  intro cs
  induction cs with
  | nil => intro d h; exact h
  | cons c rest ih =>
    intro d h
    exact ih _ (insertChunkRow_dbinv withVec d c h)

theorem indexText_dbinv (tok : Str → Nat) (size ov : Nat) (db : DBState)
    (text path : Str) (source : MemorySource) (h : DBInv db) :
    DBInv (indexText tok size ov db text path source) := by
  have h1 : DBInv (deleteChunks db path) := deleteChunks_dbinv db path h
  simp only [indexText]
  split
  · exact h1
  · exact foldl_insert_dbinv false _ _ h1

theorem indexFile_dbinv (tok : Str → Nat) (size ov : Nat) (useVec : Bool) (db : DBState)
    (content path : Str) (source : MemorySource) (h : DBInv db) :
    DBInv (indexFile tok size ov useVec db content path source) := by
  have h1 : DBInv (deleteChunks db path) := deleteChunks_dbinv db path h
  simp only [indexFile]
  split
  · exact h
  · cases useVec
    · simp only [Bool.false_eq_true, if_false]
      split
      · exact h1
      · exact foldl_insert_dbinv false _ _ h1
    · simp only [if_true]
      split
      · exact h1
      · exact foldl_insert_dbinv true _ _ h1

theorem applyOp_dbinv (tok : Str → Nat) (size ov : Nat) (useVec : Bool) (db : DBState)
    (op : MemOp) (h : DBInv db) : DBInv (applyOp tok size ov useVec db op) := by
  cases op with
  | file content path source => exact indexFile_dbinv tok size ov useVec db content path source h
  | text content path source => exact indexText_dbinv tok size ov db content path source h

theorem applyOps_dbinv (tok : Str → Nat) (size ov : Nat) (useVec : Bool) :
    ∀ (ops : List MemOp) (db : DBState), DBInv db →
      DBInv (applyOps tok size ov useVec db ops) := by
  intro ops
  induction ops with
  | nil => intro db h; exact h
  | cons op rest ih =>
    intro db h
    exact ih _ (applyOp_dbinv tok size ov useVec db op h)

theorem initDB_dbinv : DBInv initDB := by
  refine ⟨rfl, by simp [initDB], ?_⟩
  intro r hr
  exact absurd hr (by simp [initDB])

/-- Modelled from the spec: `count_tokens` of `openbotx/helpers/tokens.py`
(not present under `src`) on character lists - `len(text) // 4`
(spec 4.A). -/
def tokLen (s : Str) : Nat := s.length / 4

/-- C3: after any sequence of `index_file`/`index_text` operations on an
initially empty index, `chunks_fts` contains exactly one row per row of
the `chunks` table (same rowids, same texts). This is the part of the
claim that holds; the `chunks_vec` half of the claim is refuted by the
counterexample - `index_text` never writes `chunks_vec`, and the
`chunks_vec` cleanup in `index_file` runs its subquery after the chunks
are already deleted, leaving stale rows. -/
theorem memory_index_fts_sync (tok : Str → Nat) (size ov : Nat) (useVec : Bool)
    (ops : List MemOp) :
    (applyOps tok size ov useVec initDB ops).fts =
      (applyOps tok size ov useVec initDB ops).chunks.map (fun r => (r.id, r.text)) :=
  (applyOps_dbinv tok size ov useVec ops initDB initDB_dbinv).1

/-- C3 counterexample: with the vector index enabled, (a) a single
`index_text` leaves a chunk whose embedding column is set but which has
no `chunks_vec` row, and (b) re-indexing a changed file leaves a stale
`chunks_vec` row whose chunk no longer exists. -/
theorem memory_index_vec_counterexample :
    (¬ ∀ r ∈ (applyOps tokLen 100 20 true initDB
        [MemOp.text "hello".toList "p".toList MemorySource.memory]).chunks,
      r.hasEmbedding = true →
        r.id ∈ (applyOps tokLen 100 20 true initDB
          [MemOp.text "hello".toList "p".toList MemorySource.memory]).vec) ∧
    (¬ ∀ cid ∈ (applyOps tokLen 100 20 true initDB
        [MemOp.file "a".toList "p".toList MemorySource.memory,
         MemOp.file "b".toList "p".toList MemorySource.memory]).vec,
      ∃ r ∈ (applyOps tokLen 100 20 true initDB
        [MemOp.file "a".toList "p".toList MemorySource.memory,
         MemOp.file "b".toList "p".toList MemorySource.memory]).chunks, r.id = cid) := by
  decide

theorem enumFrom_snd {α : Type} : ∀ (n : Nat) (l : List α),
    (List.enumFrom n l).map Prod.snd = l := by
  intro n l
  induction l generalizing n with
  | nil => rfl
  | cons x xs ih => simp [List.enumFrom, ih]

theorem chunkFold_len_mono (tok : Str → Nat) (size ov : Nat) (path : Str)
    (source : MemorySource) :
    ∀ (ls : List (Nat × Str)) (st : CState),
      st.chunks.length ≤ ((ls.foldl (chunkStep tok size ov path source) st).chunks).length := by
  intro ls
  induction ls with
  | nil => intro st; exact Nat.le_refl _
  | cons x rest ih =>
    intro st
    rw [List.foldl_cons]
    refine Nat.le_trans ?_ (ih (chunkStep tok size ov path source st x))
    simp only [chunkStep]
    split
    · simp
    · simp

theorem chunkFold_no_split (tok : Str → Nat) (size ov : Nat) (path : Str)
    (source : MemorySource) :
    ∀ (ls : List (Nat × Str)) (st : CState),
      ((ls.foldl (chunkStep tok size ov path source) st).chunks).length =
        st.chunks.length →
      (ls.foldl (chunkStep tok size ov path source) st).cur = st.cur ++ ls.map Prod.snd ∧
      (ls.foldl (chunkStep tok size ov path source) st).startLine = st.startLine := by
  intro ls
  induction ls with
  | nil => intro st _; exact ⟨by simp, rfl⟩
  | cons x rest ih =>
    intro st hlen
    rw [List.foldl_cons] at hlen ⊢
    by_cases hc : st.curTok + tok x.2 > size ∧ st.cur ≠ []
    · exfalso
      have hm := chunkFold_len_mono tok size ov path source rest
        (chunkStep tok size ov path source st x)
      have hstep : (chunkStep tok size ov path source st x).chunks =
          st.chunks ++ [⟨path, source, st.startLine, x.1 - 1, joinNl st.cur⟩] := by
        simp only [chunkStep]
        rw [if_pos hc]
      rw [hstep] at hm
      simp only [List.length_append, List.length_cons, List.length_nil] at hm
      omega
    · have hstep : chunkStep tok size ov path source st x =
          ⟨st.chunks, st.cur ++ [x.2], st.curTok + tok x.2, st.startLine⟩ := by
        simp only [chunkStep]
        rw [if_neg hc]
      rw [hstep] at hlen ⊢
      obtain ⟨h1, h2⟩ := ih _ (by simpa using hlen)
      constructor
      · rw [h1]
        simp
      · simpa using h2

theorem chunkFold_cur_ne (tok : Str → Nat) (size ov : Nat) (path : Str)
    (source : MemorySource) :
    ∀ (ls : List (Nat × Str)) (st : CState), st.cur ≠ [] ∨ ls ≠ [] →
      (ls.foldl (chunkStep tok size ov path source) st).cur ≠ [] := by
  intro ls
  induction ls with
  | nil =>
    intro st h
    rcases h with h | h
    · exact h
    · exact absurd rfl h
  | cons x rest ih =>
    intro st _
    rw [List.foldl_cons]
    apply ih
    left
    simp only [chunkStep]
    split
    · simp
    · simp

theorem chunkText_single (tok : Str → Nat) (size ov : Nat) (text path : Str)
    (source : MemorySource) (c : Chunk)
    (h : chunkText tok size ov text path source = [c]) :
    c = ⟨path, source, 1, (splitNl text).length, text⟩ := by
  have henum : List.enumFrom 1 (splitNl text) ≠ [] := by
    cases hs : splitNl text with
    | nil => exact absurd hs (splitNl_ne_nil text)
    | cons a l => simp [List.enumFrom]
  have hne : ((List.enumFrom 1 (splitNl text)).foldl
      (chunkStep tok size ov path source) ⟨[], [], 0, 1⟩).cur ≠ [] :=
    chunkFold_cur_ne tok size ov path source _ _ (Or.inr henum)
  simp only [chunkText] at h
  rw [if_pos hne] at h
  cases hchunks : ((List.enumFrom 1 (splitNl text)).foldl
      (chunkStep tok size ov path source) ⟨[], [], 0, 1⟩).chunks with
  | cons y ys =>
    rw [hchunks] at h
    exact absurd (congrArg List.length h) (by simp)
  | nil =>
    rw [hchunks, List.nil_append] at h
    obtain ⟨hcur, hstart⟩ := chunkFold_no_split tok size ov path source
      (List.enumFrom 1 (splitNl text)) ⟨[], [], 0, 1⟩ (by rw [hchunks])
    rw [List.nil_append, enumFrom_snd] at hcur
    have := List.head_eq_of_cons_eq h
    rw [hcur, hstart, joinNl_splitNl] at this
    exact this.symm

theorem filter_path_deleted (l : List ChunkRow) (path : Str) :
    (l.filter (fun r => ¬ r.path = path)).filter (fun r => r.path = path) = [] := by
  induction l with
  | nil => rfl
  | cons r rest ih =>
    by_cases hp : r.path = path
    · simp [List.filter_cons, hp, ih]
    · simp [List.filter_cons, hp, ih]

/-- C10: when `_chunk_text` produces exactly one chunk, `index_text`
followed by `get` (with no filesystem file at the path) returns the
original text: the single chunk's text is the newline-join of all lines,
which is the input itself. -/
theorem index_text_get_roundtrip (tok : Str → Nat) (size ov : Nat) (db : DBState)
    (text path : Str) (source : MemorySource)
    (hone : (chunkText tok size ov text path source).length = 1) :
    getMem (indexText tok size ov db text path source) path = some text := by
  obtain ⟨c, hc⟩ : ∃ c, chunkText tok size ov text path source = [c] := by
    cases hcs : chunkText tok size ov text path source with
    | nil => rw [hcs] at hone; simp at hone
    | cons a l =>
      cases l with
      | nil => exact ⟨a, rfl⟩
      | cons b bs => rw [hcs] at hone; simp at hone
  have hcc := chunkText_single tok size ov text path source c hc
  subst hcc
  simp only [indexText, hc]
  rw [if_neg (by simp)]
  simp only [List.foldl_cons, List.foldl_nil, insertChunkRow]
  simp only [getMem, deleteChunks]
  rw [List.filter_append, filter_path_deleted]
  simp [sortByStart, insertByStart, joinNl, intercalate_single]

/-- C10 witness: a two-line text that fits in one chunk round-trips
through `index_text` and `get`. -/
theorem index_text_get_roundtrip_witness :
    (chunkText tokLen 100 20 "ab\ncd".toList "p".toList MemorySource.memory).length = 1 ∧
    getMem (indexText tokLen 100 20 initDB "ab\ncd".toList "p".toList MemorySource.memory)
        "p".toList = some "ab\ncd".toList :=
  ⟨by decide,
    index_text_get_roundtrip tokLen 100 20 initDB "ab\ncd".toList "p".toList
      MemorySource.memory (by decide)⟩

/-- Update of `results_map[chunk_id]["vec_score"] = score` in `search`:
insert `{vec_score: 0, text_score: 0}` when the id is new (dict
insertion order preserved), then set the vec component. Scores are
modelled as rationals. -/
def setVecScore (m : List (Nat × ℚ × ℚ)) (id : Nat) (s : ℚ) : List (Nat × ℚ × ℚ) :=
  if m.any (fun e => e.1 = id) then
    m.map (fun e => if e.1 = id then (id, s, e.2.2) else e)
  else m ++ [(id, s, 0)]

/-- Update of `results_map[chunk_id]["text_score"] = score`. -/
def setTextScore (m : List (Nat × ℚ × ℚ)) (id : Nat) (s : ℚ) : List (Nat × ℚ × ℚ) :=
  if m.any (fun e => e.1 = id) then
    m.map (fun e => if e.1 = id then (id, e.2.1, s) else e)
  else m ++ [(id, 0, s)]

/-- The `results_map` dictionary of `search` after both result lists are
folded in: vector results first, then text results. -/
def resultsMap (vecResults textResults : List (Nat × ℚ)) : List (Nat × ℚ × ℚ) :=
  textResults.foldl (fun m e => setTextScore m e.1 e.2)
    (vecResults.foldl (fun m e => setVecScore m e.1 e.2) [])

/-- One insertion step of the stable descending sort modelling Python's
`combined.sort(key=lambda x: x[1], reverse=True)`: an element is placed
before the first strictly smaller score, after equal ones already
present later in the original order. -/
def insertDesc (r : Nat × ℚ) : List (Nat × ℚ) → List (Nat × ℚ)
  | [] => [r]
  | x :: xs => if x.2 ≤ r.2 then r :: x :: xs else x :: insertDesc r xs

/-- Stable descending sort by score. -/
def sortDesc (l : List (Nat × ℚ)) : List (Nat × ℚ) := l.foldr insertDesc []

/-- The combine stage of `MemoryIndex.search`: combined score
`vec·vector_weight + text·text_weight` per candidate, `min_score`
filter, stable descending sort, and the `[:max_results]` cap. -/
def searchCombine (vw tw minScore : ℚ) (maxResults : Nat)
    (vecResults textResults : List (Nat × ℚ)) : List (Nat × ℚ) :=
  let combined := (resultsMap vecResults textResults).map
      (fun e => (e.1, e.2.1 * vw + e.2.2 * tw))
  let kept := combined.filter (fun e => minScore ≤ e.2)
  (sortDesc kept).take maxResults

/-- Spec-side score lookup in a candidate score map, a missing id
counting as 0. -/
def lookupScore (l : List (Nat × ℚ)) (id : Nat) : ℚ :=
  ((l.find? (fun e => e.1 = id)).map Prod.snd).getD 0

theorem vecFold_eq :
    ∀ (vec : List (Nat × ℚ)) (m0 : List (Nat × ℚ × ℚ)),
      (∀ e ∈ vec, ∀ x ∈ m0, ¬ x.1 = e.1) →
      (vec.map Prod.fst).Nodup →
      vec.foldl (fun m e => setVecScore m e.1 e.2) m0 =
        m0 ++ vec.map (fun e => (e.1, e.2, 0)) := by
  intro vec
  induction vec with
  | nil => intro m0 _ _; simp
  | cons e rest ih =>
    intro m0 hdisj hnd
    rw [List.map_cons, List.nodup_cons] at hnd
    rw [List.foldl_cons]
    have hany : (m0.any fun x => decide (x.1 = e.1)) = false := by
      rw [List.any_eq_false]
      intro x hx
      simpa using hdisj e (by simp) x hx
    have hstep : setVecScore m0 e.1 e.2 = m0 ++ [(e.1, e.2, 0)] := by
      rw [setVecScore, if_neg (by simp [hany])]
    rw [hstep]
    rw [ih (m0 ++ [(e.1, e.2, 0)]) ?_ hnd.2]
    · simp
    · intro f hf x hx
      rcases List.mem_append.mp hx with hx | hx
      · exact hdisj f (by simp [hf]) x hx
      · simp only [List.mem_singleton] at hx
        subst hx
        show ¬ e.1 = f.1
        intro hef
        exact hnd.1 (hef ▸ List.mem_map_of_mem Prod.fst hf)

theorem any_key_map_upd (m : List (Nat × ℚ × ℚ)) (pid : Nat) (g : Nat × ℚ × ℚ → ℚ × ℚ)
    (id : Nat) :
    ((m.map (fun e => if e.1 = pid then (pid, g e) else e)).any fun x => decide (x.1 = id)) =
      (m.any fun x => decide (x.1 = id)) := by
  induction m with
  | nil => rfl
  | cons x xs ih =>
    simp only [List.map_cons, List.any_cons, ih]
    by_cases h : x.1 = pid
    · simp [h]
    · simp [h]

theorem find_none_of_not_key (l : List (Nat × ℚ)) (id : Nat)
    (h : id ∉ l.map Prod.fst) :
    l.find? (fun e => e.1 = id) = none := by
  rw [List.find?_eq_none]
  intro a ha
  simp only [decide_eq_true_eq]
  intro ha1
  exact h (ha1 ▸ List.mem_map_of_mem Prod.fst ha)

theorem textFold_eq :
    ∀ (txt : List (Nat × ℚ)) (m0 : List (Nat × ℚ × ℚ)),
      (txt.map Prod.fst).Nodup →
      txt.foldl (fun m e => setTextScore m e.1 e.2) m0 =
        m0.map (fun x => (x.1, x.2.1,
          ((txt.find? (fun e => e.1 = x.1)).map Prod.snd).getD x.2.2)) ++
        (txt.filter (fun e => ¬ m0.any (fun x => x.1 = e.1))).map
          (fun e => (e.1, 0, e.2)) := by
  intro txt
  induction txt with
  | nil =>
    intro m0 _
    have hfun : (fun (x : Nat × ℚ × ℚ) => (x.1, x.2.1,
        ((List.find? (fun e => decide (e.1 = x.1)) ([] : List (Nat × ℚ))).map
          Prod.snd).getD x.2.2)) = fun x => x := by
      funext x
      rfl
    simp only [List.foldl_nil, hfun, List.filter_nil, List.map_nil, List.append_nil]
    exact (List.map_id' _).symm
  | cons p rest ih =>
    intro m0 hnd
    rw [List.map_cons, List.nodup_cons] at hnd
    have hfindrest : rest.find? (fun e => e.1 = p.1) = none :=
      find_none_of_not_key rest p.1 hnd.1
    rw [List.foldl_cons]
    by_cases hmem : (m0.any fun x => decide (x.1 = p.1)) = true
    · have hstep : setTextScore m0 p.1 p.2 =
          m0.map (fun e => if e.1 = p.1 then (p.1, e.2.1, p.2) else e) := by
        rw [setTextScore, if_pos hmem]
      rw [hstep, ih _ hnd.2]
      have hfilterhead : ((p :: rest).filter
          (fun e => ¬ m0.any (fun x => x.1 = e.1))) =
          rest.filter (fun e => ¬ m0.any (fun x => x.1 = e.1)) := by
        rw [List.filter_cons, if_neg (by simp [hmem])]
      rw [hfilterhead]
      congr 1
      · rw [List.map_map]
        apply List.map_congr_left
        intro x hx
        by_cases hxid : x.1 = p.1
        · simp only [Function.comp_apply, if_pos hxid]
          rw [List.find?_cons_of_pos _ (by simp [hxid]), hfindrest]
          simp [hxid]
        · simp only [Function.comp_apply, if_neg hxid]
          rw [List.find?_cons_of_neg _
            (by simp only [decide_eq_true_eq]; exact fun h => hxid h.symm)]
      · have hfeq : (rest.filter (fun e =>
            ¬ ((m0.map (fun x => if x.1 = p.1 then (p.1, x.2.1, p.2) else x)).any
              fun x => x.1 = e.1))) =
            rest.filter (fun e => ¬ m0.any (fun x => x.1 = e.1)) := by
          apply filter_congr_mem
          intro e he
          have h2 := any_key_map_upd m0 p.1 (fun x => (x.2.1, p.2)) e.1
          simp [h2]
        rw [hfeq]
    · have hstep : setTextScore m0 p.1 p.2 = m0 ++ [(p.1, 0, p.2)] := by
        rw [setTextScore, if_neg hmem]
      have hkeynotin : ∀ x ∈ m0, ¬ x.1 = p.1 := by
        intro x hx h1
        exact hmem (List.any_eq_true.mpr ⟨x, hx, by simp [h1]⟩)
      rw [hstep, ih _ hnd.2, List.map_append]
      have hnew : (([(p.1, 0, p.2)] : List (Nat × ℚ × ℚ)).map (fun x => (x.1, x.2.1,
          ((rest.find? (fun e => e.1 = x.1)).map Prod.snd).getD x.2.2))) =
          [(p.1, 0, p.2)] := by
        simp only [List.map_cons, List.map_nil]
        rw [hfindrest]
        rfl
      rw [hnew]
      have hmaps : m0.map (fun x => (x.1, x.2.1,
          ((rest.find? (fun e => e.1 = x.1)).map Prod.snd).getD x.2.2)) =
          m0.map (fun x => (x.1, x.2.1,
            (((p :: rest).find? (fun e => e.1 = x.1)).map Prod.snd).getD x.2.2)) := by
        apply List.map_congr_left
        intro x hx
        rw [List.find?_cons_of_neg _
          (by simp only [decide_eq_true_eq]; exact fun h => hkeynotin x hx h.symm)]
      have hfilterhead : ((p :: rest).filter
          (fun e => ¬ m0.any (fun x => x.1 = e.1))) =
          p :: rest.filter (fun e => ¬ m0.any (fun x => x.1 = e.1)) := by
        rw [List.filter_cons, if_pos (by simp [hmem])]
      have hfilterrest : rest.filter
          (fun e => ¬ (m0 ++ [(p.1, 0, p.2)]).any (fun x => x.1 = e.1)) =
          rest.filter (fun e => ¬ m0.any (fun x => x.1 = e.1)) := by
        apply filter_congr_mem
        intro e he
        have hne : ¬ p.1 = e.1 := by
          intro h1
          exact hnd.1 (h1 ▸ List.mem_map_of_mem Prod.fst he)
        simp [List.any_append, hne]
      rw [hfilterrest, hfilterhead, hmaps]
      simp

theorem find_self_of_nodup :
    ∀ (l : List (Nat × ℚ)) (v : Nat × ℚ), v ∈ l → (l.map Prod.fst).Nodup →
      l.find? (fun e => e.1 = v.1) = some v := by
  intro l
  induction l with
  | nil => intro v hv _; exact absurd hv (by simp)
  | cons c cs ih =>
    intro v hv hnd
    rw [List.map_cons, List.nodup_cons] at hnd
    rcases List.mem_cons.mp hv with hv | hv
    · subst hv
      rw [List.find?_cons_of_pos _ (by simp)]
    · have hne : ¬ c.1 = v.1 := by
        intro h
        exact hnd.1 (h ▸ List.mem_map_of_mem Prod.fst hv)
      rw [List.find?_cons_of_neg _ (by simp [hne]), ih v hv hnd.2]

theorem resultsMap_eq (vec txt : List (Nat × ℚ))
    (hv : (vec.map Prod.fst).Nodup) (ht : (txt.map Prod.fst).Nodup) :
    resultsMap vec txt =
      vec.map (fun v => (v.1, v.2, lookupScore txt v.1)) ++
      (txt.filter (fun e =>
        ¬ (vec.map (fun v => (v.1, v.2, (0:ℚ)))).any (fun x => x.1 = e.1))).map
        (fun e => (e.1, 0, e.2)) := by
  rw [resultsMap, vecFold_eq vec []
      (by intro e he x hx; exact absurd hx (by simp)) hv,
    List.nil_append, textFold_eq _ _ ht]
  congr 1
  rw [List.map_map]
  apply List.map_congr_left
  intro v hv2
  rfl

theorem resultsMap_entries (vec txt : List (Nat × ℚ))
    (hv : (vec.map Prod.fst).Nodup) (ht : (txt.map Prod.fst).Nodup) :
    ∀ x ∈ resultsMap vec txt,
      x.2.1 = lookupScore vec x.1 ∧ x.2.2 = lookupScore txt x.1 ∧
      (x.1 ∈ vec.map Prod.fst ∨ x.1 ∈ txt.map Prod.fst) := by
  intro x hx
  rw [resultsMap_eq vec txt hv ht] at hx
  rcases List.mem_append.mp hx with hx | hx
  · rcases List.mem_map.mp hx with ⟨v, hvmem, hvx⟩
    subst hvx
    refine ⟨?_, rfl, Or.inl (List.mem_map_of_mem Prod.fst hvmem)⟩
    show v.2 = lookupScore vec v.1
    rw [lookupScore, find_self_of_nodup vec v hvmem hv]
    rfl
  · rcases List.mem_map.mp hx with ⟨e, hemem, hex⟩
    subst hex
    have hefil := List.mem_filter.mp hemem
    have hnotvec : e.1 ∉ vec.map Prod.fst := by
      intro hin
      rcases List.mem_map.mp hin with ⟨v, hvmem, hv1⟩
      have hpred := hefil.2
      simp only [decide_eq_true_eq] at hpred
      exact hpred (List.any_eq_true.mpr ⟨(v.1, v.2, 0),
        List.mem_map_of_mem _ hvmem, by simp [hv1]⟩)
    refine ⟨?_, ?_, Or.inr (List.mem_map_of_mem Prod.fst hefil.1)⟩
    · show (0:ℚ) = lookupScore vec e.1
      rw [lookupScore, find_none_of_not_key vec e.1 hnotvec]
      rfl
    · show e.2 = lookupScore txt e.1
      rw [lookupScore, find_self_of_nodup txt e hefil.1 ht]
      rfl

theorem resultsMap_keys_nodup (vec txt : List (Nat × ℚ))
    (hv : (vec.map Prod.fst).Nodup) (ht : (txt.map Prod.fst).Nodup) :
    ((resultsMap vec txt).map Prod.fst).Nodup := by
  rw [resultsMap_eq vec txt hv ht, List.map_append, List.nodup_append]
  refine ⟨?_, ?_, ?_⟩
  · rw [List.map_map]
    have hcomp : (Prod.fst ∘ fun v : Nat × ℚ => (v.1, v.2, lookupScore txt v.1)) =
        Prod.fst := by
      funext v
      rfl
    rw [hcomp]
    exact hv
  · rw [List.map_map]
    have hcomp : (Prod.fst ∘ fun e : Nat × ℚ => (e.1, (0:ℚ), e.2)) = Prod.fst := by
      funext v
      rfl
    rw [hcomp]
    exact List.Nodup.sublist (List.Sublist.map _ (List.filter_sublist txt)) ht
  · intro a ha ha2
    rcases List.mem_map.mp ha with ⟨x, hx, hax⟩
    rcases List.mem_map.mp hx with ⟨v, hvm, hvx⟩
    rcases List.mem_map.mp ha2 with ⟨y, hy, hay⟩
    rcases List.mem_map.mp hy with ⟨e, hem, hey⟩
    have hefil := List.mem_filter.mp hem
    have hpred := hefil.2
    simp only [decide_eq_true_eq] at hpred
    apply hpred
    apply List.any_eq_true.mpr
    refine ⟨(v.1, v.2, 0), List.mem_map_of_mem _ hvm, ?_⟩
    have : v.1 = e.1 := by
      have h1 : x.1 = a := hax
      have h2 : y.1 = a := hay
      rw [← hvx] at h1
      rw [← hey] at h2
      simp only [] at h1 h2
      rw [← h1] at h2
      exact h2.symm
    simp [this]

theorem resultsMap_covers (vec txt : List (Nat × ℚ))
    (hv : (vec.map Prod.fst).Nodup) (ht : (txt.map Prod.fst).Nodup) :
    ∀ id, (id ∈ vec.map Prod.fst ∨ id ∈ txt.map Prod.fst) →
      id ∈ (resultsMap vec txt).map Prod.fst := by
  have hleft : ∀ id, id ∈ vec.map Prod.fst →
      id ∈ ((vec.map (fun v : Nat × ℚ => (v.1, v.2, lookupScore txt v.1))).map Prod.fst) := by
    intro id hid
    rcases List.mem_map.mp hid with ⟨v, hvm, hvx⟩
    subst hvx
    exact List.mem_map.mpr ⟨(v.1, v.2, lookupScore txt v.1),
      List.mem_map_of_mem _ hvm, rfl⟩
  intro id hid
  rw [resultsMap_eq vec txt hv ht, List.map_append]
  rcases hid with hid | hid
  · exact List.mem_append_left _ (hleft id hid)
  · by_cases hin : id ∈ vec.map Prod.fst
    · exact List.mem_append_left _ (hleft id hin)
    · apply List.mem_append_right
      rcases List.mem_map.mp hid with ⟨e, hem, hex⟩
      subst hex
      refine List.mem_map.mpr ⟨(e.1, 0, e.2), List.mem_map.mpr ⟨e, ?_, rfl⟩, rfl⟩
      apply List.mem_filter.mpr
      refine ⟨hem, ?_⟩
      simp only [decide_eq_true_eq]
      intro hany
      rcases List.any_eq_true.mp hany with ⟨x, hxm, hxe⟩
      rcases List.mem_map.mp hxm with ⟨v, hvm, hvx⟩
      subst hvx
      simp only [decide_eq_true_eq] at hxe
      exact hin (hxe ▸ List.mem_map_of_mem Prod.fst hvm)

theorem mem_insertDesc (r : Nat × ℚ) :
    ∀ (l : List (Nat × ℚ)) (x : Nat × ℚ), x ∈ insertDesc r l ↔ x = r ∨ x ∈ l := by
  intro l
  induction l with
  | nil => intro x; simp [insertDesc]
  | cons y ys ih =>
    intro x
    rw [insertDesc]
    by_cases hc : y.2 ≤ r.2
    · rw [if_pos hc]
      simp [List.mem_cons]
    · rw [if_neg hc]
      rw [List.mem_cons, ih x, List.mem_cons]
      tauto

theorem insertDesc_perm (r : Nat × ℚ) :
    ∀ (l : List (Nat × ℚ)), List.Perm (insertDesc r l) (r :: l) := by
  intro l
  induction l with
  | nil => exact List.Perm.refl _
  | cons y ys ih =>
    rw [insertDesc]
    by_cases hc : y.2 ≤ r.2
    · rw [if_pos hc]
    · rw [if_neg hc]
      exact (ih.cons y).trans (List.Perm.swap r y ys)

theorem sortDesc_perm : ∀ (l : List (Nat × ℚ)), List.Perm (sortDesc l) l := by
  intro l
  induction l with
  | nil => exact List.Perm.refl _
  | cons x xs ih => exact (insertDesc_perm x (sortDesc xs)).trans (ih.cons x)

theorem insertDesc_sorted (r : Nat × ℚ) :
    ∀ (l : List (Nat × ℚ)), l.Pairwise (fun a b => b.2 ≤ a.2) →
      (insertDesc r l).Pairwise (fun a b => b.2 ≤ a.2) := by
  intro l
  induction l with
  | nil => intro _; simp [insertDesc]
  | cons y ys ih =>
    intro h
    rw [List.pairwise_cons] at h
    rw [insertDesc]
    by_cases hc : y.2 ≤ r.2
    · rw [if_pos hc]
      apply List.Pairwise.cons
      · intro b hb
        rcases List.mem_cons.mp hb with hb | hb
        · subst hb; exact hc
        · exact le_trans (h.1 b hb) hc
      · exact List.Pairwise.cons h.1 h.2
    · rw [if_neg hc]
      apply List.Pairwise.cons
      · intro b hb
        rcases (mem_insertDesc r ys b).mp hb with hb | hb
        · subst hb; exact le_of_not_le hc
        · exact h.1 b hb
      · exact ih h.2

theorem sortDesc_sorted : ∀ (l : List (Nat × ℚ)),
    (sortDesc l).Pairwise (fun a b => b.2 ≤ a.2) := by
  intro l
  induction l with
  | nil => simp [sortDesc]
  | cons x xs ih => exact insertDesc_sorted x (sortDesc xs) ih

/-- C6: the combine stage of `MemoryIndex.search`. For candidate score
maps from the vector and text searches (result lists with distinct
chunk ids), the returned list has at most `max_results` entries, is
sorted by decreasing combined score with pairwise distinct ids, every
entry scores `vec_score·vector_weight + text_score·text_weight` (missing
scores counting as 0), is at least `min_score`, and stems from one of
the candidate maps; and a candidate meeting `min_score` is missing from
the result only when the result is full with entries scoring at least as
much. -/
theorem search_combine_spec (vw tw minScore : ℚ) (maxResults : Nat)
    (vec txt : List (Nat × ℚ))
    (hv : (vec.map Prod.fst).Nodup) (ht : (txt.map Prod.fst).Nodup) :
    (searchCombine vw tw minScore maxResults vec txt).length ≤ maxResults ∧
    (searchCombine vw tw minScore maxResults vec txt).Pairwise
      (fun a b => b.2 ≤ a.2) ∧
    ((searchCombine vw tw minScore maxResults vec txt).map Prod.fst).Nodup ∧
    (∀ e ∈ searchCombine vw tw minScore maxResults vec txt,
      minScore ≤ e.2 ∧
      e.2 = lookupScore vec e.1 * vw + lookupScore txt e.1 * tw ∧
      (e.1 ∈ vec.map Prod.fst ∨ e.1 ∈ txt.map Prod.fst)) ∧
    (∀ id, (id ∈ vec.map Prod.fst ∨ id ∈ txt.map Prod.fst) →
      minScore ≤ lookupScore vec id * vw + lookupScore txt id * tw →
      id ∉ (searchCombine vw tw minScore maxResults vec txt).map Prod.fst →
      (searchCombine vw tw minScore maxResults vec txt).length = maxResults ∧
      ∀ e ∈ searchCombine vw tw minScore maxResults vec txt,
        lookupScore vec id * vw + lookupScore txt id * tw ≤ e.2) := by
  have hres : searchCombine vw tw minScore maxResults vec txt =
      (sortDesc (((resultsMap vec txt).map
        (fun e => (e.1, e.2.1 * vw + e.2.2 * tw))).filter
          (fun e => minScore ≤ e.2))).take maxResults := rfl
  have hperm := sortDesc_perm (((resultsMap vec txt).map
    (fun e => (e.1, e.2.1 * vw + e.2.2 * tw))).filter (fun e => minScore ≤ e.2))
  have hsorted := sortDesc_sorted (((resultsMap vec txt).map
    (fun e => (e.1, e.2.1 * vw + e.2.2 * tw))).filter (fun e => minScore ≤ e.2))
  have hckeys : (((resultsMap vec txt).map
      (fun e => (e.1, e.2.1 * vw + e.2.2 * tw))).map Prod.fst).Nodup := by
    rw [List.map_map]
    have hcomp : (Prod.fst ∘ fun e : Nat × ℚ × ℚ => (e.1, e.2.1 * vw + e.2.2 * tw)) =
        Prod.fst := by
      funext e
      rfl
    rw [hcomp]
    exact resultsMap_keys_nodup vec txt hv ht
  have hmemres : ∀ e ∈ searchCombine vw tw minScore maxResults vec txt,
      minScore ≤ e.2 ∧
      e.2 = lookupScore vec e.1 * vw + lookupScore txt e.1 * tw ∧
      (e.1 ∈ vec.map Prod.fst ∨ e.1 ∈ txt.map Prod.fst) := by
    intro e he
    rw [hres] at he
    have hS := List.Sublist.mem he (List.take_sublist _ _)
    have hkept := hperm.mem_iff.mp hS
    have hfil := List.mem_filter.mp hkept
    have hmin : minScore ≤ e.2 := by simpa using hfil.2
    rcases List.mem_map.mp hfil.1 with ⟨x, hxm, hxe⟩
    obtain ⟨hx1, hx2, hx3⟩ := resultsMap_entries vec txt hv ht x hxm
    subst hxe
    exact ⟨hmin, by rw [hx1, hx2], hx3⟩
  refine ⟨?_, ?_, ?_, hmemres, ?_⟩
  · rw [hres]
    exact List.length_take_le _ _
  · rw [hres]
    exact List.Pairwise.sublist (List.take_sublist _ _) hsorted
  · rw [hres]
    refine List.Nodup.sublist (List.Sublist.map Prod.fst (List.take_sublist _ _)) ?_
    exact (hperm.map Prod.fst).nodup_iff.mpr
      (List.Nodup.sublist (List.Sublist.map Prod.fst (List.filter_sublist _)) hckeys)
  · intro id hid hmin hnotin
    obtain ⟨x, hxm, hx1⟩ : ∃ x ∈ resultsMap vec txt, x.1 = id := by
      rcases List.mem_map.mp (resultsMap_covers vec txt hv ht id hid) with ⟨x, hxm, hxe⟩
      exact ⟨x, hxm, hxe⟩
    obtain ⟨he1, he2, _⟩ := resultsMap_entries vec txt hv ht x hxm
    have hcx : x.2.1 * vw + x.2.2 * tw =
        lookupScore vec id * vw + lookupScore txt id * tw := by
      rw [he1, he2, hx1]
    have hcxS : (x.1, x.2.1 * vw + x.2.2 * tw) ∈ sortDesc (((resultsMap vec txt).map
        (fun e => (e.1, e.2.1 * vw + e.2.2 * tw))).filter (fun e => minScore ≤ e.2)) := by
      apply hperm.mem_iff.mpr
      apply List.mem_filter.mpr
      refine ⟨List.mem_map.mpr ⟨x, hxm, rfl⟩, by simp [hcx, hmin]⟩
    have hcxnot : (x.1, x.2.1 * vw + x.2.2 * tw) ∉
        searchCombine vw tw minScore maxResults vec txt := by
      intro hmem
      exact hnotin (List.mem_map.mpr ⟨(x.1, x.2.1 * vw + x.2.2 * tw), hmem, hx1⟩)
    rw [hres] at hcxnot
    have hcxdrop : (x.1, x.2.1 * vw + x.2.2 * tw) ∈
        (sortDesc (((resultsMap vec txt).map
          (fun e => (e.1, e.2.1 * vw + e.2.2 * tw))).filter
            (fun e => minScore ≤ e.2))).drop maxResults := by
      have := List.take_append_drop maxResults (sortDesc (((resultsMap vec txt).map
        (fun e => (e.1, e.2.1 * vw + e.2.2 * tw))).filter (fun e => minScore ≤ e.2)))
      rw [← this] at hcxS
      rcases List.mem_append.mp hcxS with hm | hm
      · exact absurd hm hcxnot
      · exact hm
    have hdropne : (sortDesc (((resultsMap vec txt).map
        (fun e => (e.1, e.2.1 * vw + e.2.2 * tw))).filter
          (fun e => minScore ≤ e.2))).drop maxResults ≠ [] := by
      intro hnil
      rw [hnil] at hcxdrop
      exact absurd hcxdrop (by simp)
    have hlen : maxResults ≤ (sortDesc (((resultsMap vec txt).map
        (fun e => (e.1, e.2.1 * vw + e.2.2 * tw))).filter
          (fun e => minScore ≤ e.2))).length := by
      by_contra hlt
      exact hdropne (List.drop_eq_nil_of_le (Nat.le_of_not_le hlt))
    constructor
    · rw [hres, List.length_take]
      exact Nat.min_eq_left hlen
    · intro e he
      rw [hres] at he
      have hpair := hsorted
      rw [← List.take_append_drop maxResults (sortDesc (((resultsMap vec txt).map
        (fun e => (e.1, e.2.1 * vw + e.2.2 * tw))).filter
          (fun e => minScore ≤ e.2)))] at hpair
      have hcross := (List.pairwise_append.mp hpair).2.2
      have hfin := hcross e he _ hcxdrop
      calc lookupScore vec id * vw + lookupScore txt id * tw
          = x.2.1 * vw + x.2.2 * tw := hcx.symm
        _ ≤ e.2 := hfin

/-- C6 witness: one vector candidate with full vector weight passes the
combine stage. -/
theorem search_combine_spec_witness :
    (([((1:Nat), (1:ℚ))].map Prod.fst).Nodup) ∧
    ((([] : List (Nat × ℚ)).map Prod.fst).Nodup) ∧
    ((searchCombine 1 0 0 1 [((1:Nat), (1:ℚ))] []).length ≤ 1 ∧
     (searchCombine 1 0 0 1 [((1:Nat), (1:ℚ))] []).Pairwise (fun a b => b.2 ≤ a.2) ∧
     ((searchCombine 1 0 0 1 [((1:Nat), (1:ℚ))] []).map Prod.fst).Nodup ∧
     (∀ e ∈ searchCombine 1 0 0 1 [((1:Nat), (1:ℚ))] [],
       (0:ℚ) ≤ e.2 ∧
       e.2 = lookupScore [((1:Nat), (1:ℚ))] e.1 * 1 + lookupScore [] e.1 * 0 ∧
       (e.1 ∈ [((1:Nat), (1:ℚ))].map Prod.fst ∨
         e.1 ∈ ([] : List (Nat × ℚ)).map Prod.fst)) ∧
     (∀ id, (id ∈ [((1:Nat), (1:ℚ))].map Prod.fst ∨
         id ∈ ([] : List (Nat × ℚ)).map Prod.fst) →
       (0:ℚ) ≤ lookupScore [((1:Nat), (1:ℚ))] id * 1 + lookupScore [] id * 0 →
       id ∉ (searchCombine 1 0 0 1 [((1:Nat), (1:ℚ))] []).map Prod.fst →
       (searchCombine 1 0 0 1 [((1:Nat), (1:ℚ))] []).length = 1 ∧
       ∀ e ∈ searchCombine 1 0 0 1 [((1:Nat), (1:ℚ))] [],
         lookupScore [((1:Nat), (1:ℚ))] id * 1 + lookupScore [] id * 0 ≤ e.2)) :=
  ⟨by decide, by decide,
    search_combine_spec 1 0 0 1 [((1:Nat), (1:ℚ))] [] (by decide) (by decide)⟩
